import Mathlib

/-!
Verification of the hybrid-retrieval RAG repository.

This file gives a shallow embedding, in Lean, of the parts of the repository
that the specification's claims are about:

* the text-cleaning pipeline (`data_ingestion/processor/text_cleaner.py`),
* the chunker factory (`data_ingestion/processor/chunker.py`),
* the workflow nodes (`src/workflows/nodes/{rewrite,retrieve,generate}.py`)
  over the `GraphState` record (`src/core/state.py`),
* the vector store (`src/services/vector_store.py`) and the ingestion
  service's collection/indexing code (`data_ingestion/pipeline.py`).

Strings are modelled as `List Char`; Python string methods (`strip`,
`split`, `splitlines`, `replace`) are embedded as executable Lean functions
over `List Char`.  Python's Unicode character classes (`\w`, `isalpha`,
`isdigit`, `isspace`) are modelled on the character universe the cleaner's
own regexes work with: ASCII plus the Latin-1/Latin-Extended-A ranges that
the table-noise regex names explicitly; the model and CPython agree on every
character appearing in the theorems below.

All recursive definitions are structural so that concrete inputs evaluate by
`decide`.
-/

namespace PyStr

/-- Python `str.isspace()` / `str.strip()` whitespace, restricted to the
characters relevant here: ASCII whitespace, the C1 separators, NBSP and the
common Unicode space codepoints. -/
def isSpacePy (c : Char) : Bool :=
  let n := c.toNat
  n == 0x9 || n == 0xA || n == 0xB || n == 0xC || n == 0xD ||
  n == 0x1C || n == 0x1D || n == 0x1E || n == 0x1F || n == 0x20 ||
  n == 0x85 || n == 0xA0 || n == 0x1680 ||
  (0x2000 ≤ n && n ≤ 0x200A) ||
  n == 0x2028 || n == 0x2029 || n == 0x202F || n == 0x205F || n == 0x3000

/-- The line boundaries of Python `str.splitlines()` (besides the two-char
boundary `"\r\n"`, handled in `splitlinesPy` itself). -/
def isLineBoundary (c : Char) : Bool :=
  let n := c.toNat
  n == 0xA || n == 0xD || n == 0xB || n == 0xC ||
  n == 0x1C || n == 0x1D || n == 0x1E || n == 0x85 ||
  n == 0x2028 || n == 0x2029

/-- Python `str.isdigit()` on the modelled universe: ASCII digits. -/
def isDigitPy (c : Char) : Bool :=
  '0' ≤ c && c ≤ '9'

/-- Python `str.isalpha()` on the modelled universe: ASCII letters plus the
Latin-1 and Latin-Extended-A letters (excluding `×` and `÷`, which are not
letters). -/
def isAlphaPy (c : Char) : Bool :=
  let n := c.toNat
  ('a' ≤ c && c ≤ 'z') || ('A' ≤ c && c ≤ 'Z') ||
  (0xC0 ≤ n && n ≤ 0x17F && n != 0xD7 && n != 0xF7)

/-- Python `str.isalnum()` on the modelled universe. -/
def isAlnumPy (c : Char) : Bool :=
  isAlphaPy c || isDigitPy c

/-- A regex `\w` word character on the modelled universe. -/
def isWordCharPy (c : Char) : Bool :=
  isAlphaPy c || isDigitPy c || c == '_'

/-- Left strip: drop leading characters satisfying `p`. -/
def lstripWith (p : Char → Bool) (l : List Char) : List Char :=
  l.dropWhile p

/-- Right strip: drop trailing characters satisfying `p`. -/
def rstripWith (p : Char → Bool) (l : List Char) : List Char :=
  (l.reverse.dropWhile p).reverse

/-- Python `str.strip()` (no argument): strip whitespace on both ends. -/
def stripPy (l : List Char) : List Char :=
  rstripWith isSpacePy (lstripWith isSpacePy l)

/-- Python `str.split(sep)` for a one-character separator: always returns at
least one (possibly empty) piece. -/
def splitSep (sep : Char) : List Char → List (List Char)
  | [] => [[]]
  | c :: rest =>
    match splitSep sep rest with
    | [] => [[]]
    | s :: ss => if c = sep then [] :: s :: ss else (c :: s) :: ss

/-- Python `sep.join(pieces)` for a one-character separator. -/
def joinSep (sep : Char) : List (List Char) → List Char
  | [] => []
  | [l] => l
  | l :: l' :: ls => l ++ sep :: joinSep sep (l' :: ls)

/-- Worker for `splitlinesPy`: `acc` is the current line, reversed.  A line is
emitted at every boundary; the final partial line is emitted only if
nonempty, matching Python. -/
def slGo : List Char → List Char → List (List Char)
  | acc, [] => if acc.isEmpty then [] else [acc.reverse]
  | acc, c :: rest =>
    if isLineBoundary c then
      if c = '\r' then
        match rest with
        | d :: r2 => if d = '\n' then acc.reverse :: slGo [] r2
                     else acc.reverse :: slGo [] (d :: r2)
        | [] => acc.reverse :: slGo [] ([] : List Char)
      else acc.reverse :: slGo [] rest
    else slGo (c :: acc) rest

/-- Python `str.splitlines()`. -/
def splitlinesPy (x : List Char) : List (List Char) :=
  slGo [] x

/-- Worker for `collapseNl`: a positive first argument skips characters
already consumed as part of an emitted newline run. -/
def cnGo : Nat → List Char → List Char
  | _, [] => []
  | k + 1, _ :: rest => cnGo k rest
  | 0, c :: rest =>
    if c = '\n' then
      let k := (rest.takeWhile (fun d => d == '\n')).length + 1
      (if 3 ≤ k then ['\n', '\n'] else List.replicate k '\n') ++ cnGo (k - 1) rest
    else c :: cnGo 0 rest

/-- The regex substitution `re.sub(r'\n{3,}', '\n\n', text)`: every maximal
run of three or more newlines becomes exactly two. -/
def collapseNl (x : List Char) : List Char :=
  cnGo 0 x

/-- Shape invariant of normalized text: no non-newline whitespace character
stands immediately before a newline (every line is right-stripped). -/
def noWsNl : List Char → Bool
  | a :: b :: rest => (!(b == '\n') || (a == '\n') || !isSpacePy a) && noWsNl (b :: rest)
  | _ => true

/-- Shape invariant of normalized text: no three consecutive newlines. -/
def noTriple : List Char → Bool
  | a :: b :: c :: rest =>
    !((a == '\n') && (b == '\n') && (c == '\n')) && noTriple (b :: c :: rest)
  | _ => true

/-- Shape invariant of normalized text: the only line-boundary character
occurring is the newline. -/
def onlyNl (x : List Char) : Bool :=
  x.all (fun c => !isLineBoundary c || c == '\n')

end PyStr

namespace Cleaner

open PyStr

/-- The literal `"<!-- image -->"` removed by `TextCleaner.remove_image_tags`. -/
def imageTag : List Char := "<!-- image -->".data

/-- Worker for `removeImageTags`: a positive first argument skips characters
already consumed as part of a removed tag; at skip level zero, scan for the
tag, matching Python `str.replace(old, '')`, which removes non-overlapping
occurrences left to right and continues after each removal. -/
def riGo : Nat → List Char → List Char
  | _, [] => []
  | k + 1, _ :: rest => riGo k rest
  | 0, c :: rest =>
    if imageTag.isPrefixOf (c :: rest) then riGo (imageTag.length - 1) rest
    else c :: riGo 0 rest

/-- `TextCleaner.remove_image_tags`: `text.replace("<!-- image -->", "")`. -/
def removeImageTags (x : List Char) : List Char :=
  riGo 0 x

/-- Match a literal at the head of the input, returning the remainder. -/
def matchLit (pat x : List Char) : Option (List Char) :=
  if pat.isPrefixOf x then some (x.drop pat.length) else none

/-- Match the glyph-artifact regex `GLYPH(?:<|&lt;)\d+(?:>|&gt;)` at the head
of the input, returning the number of characters consumed.  The digit part is
greedy and a shorter digit run can never make the closing bracket match, so
the match is deterministic. -/
def glyphLen (x : List Char) : Option Nat :=
  match matchLit "GLYPH".data x with
  | none => none
  | some x1 =>
    let afterOpen :=
      match matchLit "<".data x1 with
      | some r => some (1, r)
      | none =>
        match matchLit "&lt;".data x1 with
        | some r => some (4, r)
        | none => none
    match afterOpen with
    | none => none
    | some (openLen, x2) =>
      let ds := x2.takeWhile isDigitPy
      if ds.isEmpty then none
      else
        let x3 := x2.dropWhile isDigitPy
        match matchLit ">".data x3 with
        | some _ => some (5 + openLen + ds.length + 1)
        | none =>
          match matchLit "&gt;".data x3 with
          | some _ => some (5 + openLen + ds.length + 4)
          | none => none

/-- Worker for `removeGlyphs`: a positive first argument skips characters of a
matched artifact; `re.sub` scans left to right and continues after each
non-overlapping match. -/
def rgGo : Nat → List Char → List Char
  | _, [] => []
  | k + 1, _ :: rest => rgGo k rest
  | 0, c :: rest =>
    match glyphLen (c :: rest) with
    | some n => rgGo (n - 1) rest
    | none => c :: rgGo 0 rest

/-- `TextCleaner.remove_glyph_artifacts`. -/
def removeGlyphs (x : List Char) : List Char :=
  rgGo 0 x

/-- The characters of `TextCleaner.noise_chars`:
`"·­€ƒ…†‡ˆ‰Š‹ŒŽ˜™š›œžŸ‚„"` (the second character is U+00AD, soft hyphen). -/
def noiseChars : List Char :=
  [Char.ofNat 0xB7, Char.ofNat 0xAD, Char.ofNat 0x20AC, Char.ofNat 0x192,
   Char.ofNat 0x2026, Char.ofNat 0x2020, Char.ofNat 0x2021, Char.ofNat 0x2C6,
   Char.ofNat 0x2030, Char.ofNat 0x160, Char.ofNat 0x2039, Char.ofNat 0x152,
   Char.ofNat 0x17D, Char.ofNat 0x2DC, Char.ofNat 0x2122, Char.ofNat 0x161,
   Char.ofNat 0x203A, Char.ofNat 0x153, Char.ofNat 0x17E, Char.ofNat 0x178,
   Char.ofNat 0x201A, Char.ofNat 0x201E]

/-- `TextCleaner.remove_noise_symbols`: a character-class substitution with
the empty string is just a filter. -/
def removeNoiseSymbols (x : List Char) : List Char :=
  x.filter (fun c => !noiseChars.contains c)

/-- Worker for `wordRuns`: `b` is the class of the run being accumulated and
`acc` its characters, reversed. -/
def wrGo : Bool → List Char → List Char → List (Bool × List Char)
  | b, acc, [] => [(b, acc.reverse)]
  | b, acc, c :: rest =>
    if isWordCharPy c = b then wrGo b (c :: acc) rest
    else (b, acc.reverse) :: wrGo (isWordCharPy c) [c] rest

/-- The maximal runs of word (`\w`) and non-word characters of a text, each
tagged with its class.  Runs are nonempty and alternate in class, and their
concatenation is the text. -/
def wordRuns : List Char → List (Bool × List Char)
  | [] => []
  | c :: rest => wrGo (isWordCharPy c) [c] rest

/-- The tokens `re.findall(r'\b\w+\b', text)`: exactly the maximal word-class
runs (inside a run of word characters there is no `\b` boundary, so every
match of `\b\w+\b` is a whole maximal run). -/
def pyTokens (x : List Char) : List (List Char) :=
  (wordRuns x).filterMap (fun bg => if bg.1 then some bg.2 else none)

/-- A token the cleaner considers a suspicious long word: longer than the
threshold and purely alphabetic (`len(w) > length_threshold and w.isalpha()`). -/
def isLongAlpha (t : Nat) (g : List Char) : Bool :=
  decide (t < g.length) && !g.isEmpty && g.all isAlphaPy

/-- `TextCleaner.remove_suspicious_long_words`.  The source collects the set
of long alphabetic tokens of `re.findall(r'\b\w+\b', text)` and then runs
`re.sub(r'\b' + re.escape(token) + r'\b', '', text)` for each.  Each
occurrence of `\b token \b` is exactly a maximal word run equal to `token`
(word boundaries cannot fall inside a run), deleting a maximal run never
creates or destroys another maximal word run (its neighbours are non-word
characters or text ends), so the set-iteration order is irrelevant and the
combined effect is: delete every maximal word run that is long and purely
alphabetic. -/
def removeSuspiciousLongWords (t : Nat) (x : List Char) : List Char :=
  ((wordRuns x).map (fun bg => if bg.1 && isLongAlpha t bg.2 then [] else bg.2)).flatten

/-- `TextCleaner.remove_single_character_lines`: drop lines whose stripped
form is a single alphabetic character. -/
def removeSingleCharLines (x : List Char) : List Char :=
  joinSep '\n' ((splitSep '\n' x).filter (fun l =>
    let s := stripPy l
    !(s.length == 1 && s.all isAlphaPy)))

/-- The keep-condition of `TextCleaner.remove_punctuation_noise_lines`: blank
lines are kept; lines with alphanumeric content are kept; other lines are
kept only when they look like table parts (contain a pipe, or consist solely
of `-`, `+`, `:`). -/
def keepPunctLine (l : List Char) : Bool :=
  let s := stripPy l
  if s.isEmpty then true
  else if s.any isAlnumPy then true
  else s.contains '|' || (!s.isEmpty && s.all (fun c => c == '-' || c == '+' || c == ':'))

/-- `TextCleaner.remove_punctuation_noise_lines`. -/
def removePunctNoiseLines (x : List Char) : List Char :=
  joinSep '\n' ((splitSep '\n' x).filter keepPunctLine)

/-- A line that opens and closes a markdown table row: its stripped form
starts and ends with a pipe (in particular it is nonempty). -/
def isPipeLine (l : List Char) : Bool :=
  let s := stripPy l
  !s.isEmpty && s.head? == some '|' && s.getLast? == some '|'

/-- A character of the separator-row class `[\s\|\-\:\+]`. -/
def isSepRowChar (c : Char) : Bool :=
  isSpacePy c || c == '|' || c == '-' || c == ':' || c == '+'

/-- The separator-row test `re.match(r'^[\s\|\-\:\+]+$', row)`, applied to
the raw row. -/
def isSeparatorRow (row : List Char) : Bool :=
  !row.isEmpty && row.all isSepRowChar

/-- Strip pipes from both ends of a row, Python `row.strip('|')` (applied to
the raw row, so surrounding whitespace shields pipes from stripping). -/
def stripPipes (row : List Char) : List Char :=
  rstripWith (fun c => c == '|') (lstripWith (fun c => c == '|') row)

/-- The cells of a table row: `[c.strip() for c in row.strip('|').split('|')]`. -/
def rowCells (row : List Char) : List (List Char) :=
  (splitSep '|' (stripPipes row)).map stripPy

/-- `TextCleaner._is_table_cell_noise`: is there a run of two or more letters
of the regex class `[a-zA-ZÀ-ſ]`?  (The regex range includes every
codepoint from U+00C0 to U+017F, `×` and `÷` included.) -/
def isLatinRangeChar (c : Char) : Bool :=
  let n := c.toNat
  ('a' ≤ c && c ≤ 'z') || ('A' ≤ c && c ≤ 'Z') || (0xC0 ≤ n && n ≤ 0x17F)

/-- A run of at least two consecutive Latin-range letters exists iff some
adjacent pair is in the class. -/
def hasLatinRun : List Char → Bool
  | a :: b :: rest => (isLatinRangeChar a && isLatinRangeChar b) || hasLatinRun (b :: rest)
  | _ => false

/-- `TextCleaner._is_table_cell_noise`: after stripping, a cell is noise when
it is empty, or has no digit and no run of two or more Latin-range letters. -/
def isTableCellNoise (cell : List Char) : Bool :=
  let s := stripPy cell
  if s.isEmpty then true
  else if s.any isDigitPy then false
  else if hasLatinRun s then false
  else true

/-- The rows of a block that enter the noise-ratio computation: separator
rows are excluded. -/
def countedRows (block : List (List Char)) : List (List Char) :=
  block.filter (fun r => !isSeparatorRow r)

/-- Total number of counted cells of a block. -/
def totalCells (block : List (List Char)) : Nat :=
  ((countedRows block).map (fun r => (rowCells r).length)).sum

/-- Number of noise cells of a block. -/
def noiseCells (block : List (List Char)) : Nat :=
  ((countedRows block).map (fun r => ((rowCells r).filter isTableCellNoise).length)).sum

/-- The retain condition of `TextCleaner.remove_empty_tables`: the block is
kept when `ratio <= 0.5` where `ratio = noise / total` (and `0` when there
are no counted cells).  With `noise` and `total` small integers the float
comparison against `0.5` coincides with the exact rational comparison
`2 * noise ≤ total` (the quotient cannot round across `0.5`, whose
neighbourhood is at distance at least `1 / (2 * total)`). -/
def keepBlock (block : List (List Char)) : Bool :=
  2 * noiseCells block ≤ totalCells block

/-- Worker for `removeEmptyTablesLines`: a positive first argument skips
lines already consumed as part of a processed table block. -/
def retGo : Nat → List (List Char) → List (List Char)
  | _, [] => []
  | k + 1, _ :: rest => retGo k rest
  | 0, l :: rest =>
    if isPipeLine l then
      let tl := rest.takeWhile isPipeLine
      (if keepBlock (l :: tl) then l :: tl else []) ++ retGo tl.length rest
    else l :: retGo 0 rest

/-- `TextCleaner.remove_empty_tables` at the level of the line list: scan for
maximal runs of pipe lines, keep or drop each whole run by its noise ratio. -/
def removeEmptyTablesLines (ls : List (List Char)) : List (List Char) :=
  retGo 0 ls

/-- `TextCleaner.remove_empty_tables`. -/
def removeEmptyTables (x : List Char) : List Char :=
  joinSep '\n' (removeEmptyTablesLines (splitSep '\n' x))

/-- `TextCleaner.normalize_whitespace`: right-strip every line of
`splitlines`, rejoin with `\n`, collapse runs of three or more newlines to
two, and strip the whole text. -/
def normalizeWhitespace (x : List Char) : List Char :=
  stripPy (collapseNl (joinSep '\n' ((splitlinesPy x).map (rstripWith isSpacePy))))

/-- `TextCleaner.clean_text`: the full pipeline, in source order; empty input
short-circuits to empty output. -/
def cleanTextL (x : List Char) : List Char :=
  if x.isEmpty then []
  else
    normalizeWhitespace
      (removeEmptyTables
        (removePunctNoiseLines
          (removeSingleCharLines
            (removeSuspiciousLongWords 20
              (removeNoiseSymbols
                (removeGlyphs
                  (removeImageTags x)))))))

/-- `TextCleaner.clean_text` on `String`. -/
def cleanText (s : String) : String :=
  ⟨cleanTextL s.data⟩

end Cleaner

namespace Chunk

/-- The two chunker classes `ChunkerFactory.create` can instantiate. -/
inductive ChunkerKind where
  | markdown
  | recursive
deriving DecidableEq, Repr

/-- The `chunkers` dictionary of `ChunkerFactory.create`. -/
def chunkerRegistry : List (String × ChunkerKind) :=
  [("markdown", ChunkerKind.markdown), ("recursive", ChunkerKind.recursive)]

/-- `ChunkerFactory.create`: unknown strategy names raise `ValueError`
(modelled as `Except.error` carrying the message); known names construct a
chunker of the corresponding class. -/
def createChunker (strategy : String) : Except String ChunkerKind :=
  match chunkerRegistry.lookup strategy with
  | some kind => Except.ok kind
  | none =>
    Except.error ("Unknown chunking strategy: " ++ strategy ++
      ". Available strategies: ['markdown', 'recursive']")

end Chunk

namespace Nodes

open PyStr

/-- `GraphState` (`src/core/state.py`).  `rewritten_question` is optional in
the model because `RetrieveNode` reads it with
`state.get("rewritten_question", state["question"])`, allowing for a state in
which the rewrite stage has not populated the key. -/
structure GraphState where
  question : String
  rewritten_question : Option String
  documents : List String
  answer : String
  years : Option (List Int)
deriving DecidableEq, Repr

/-- The structured-output schema `RewriteOutput` of the rewrite node. -/
structure RewriteOutput where
  years : List Int
  query : String
deriving DecidableEq, Repr

/-- `RewriteNode.execute`.  The structured call
`self.structured_llm.invoke(messages)` is modelled by its outcome `result`:
`Except.error` covers every failure caught by the node's
`except Exception` handler (malformed output, provider error, timeout).  On
success the node stores the rewritten query and the years list (an empty
list is stored as `None`); on failure it falls back to the original question
and `None`.  The function is total: the stage never raises. -/
def executeRewrite {ε : Type} (result : Except ε RewriteOutput)
    (s : GraphState) : GraphState :=
  match result with
  | Except.ok r =>
    { s with
      rewritten_question := some r.query
      years := if r.years.isEmpty then none else some r.years }
  | Except.error _ =>
    { s with rewritten_question := some s.question, years := none }

/-- `RetrieveNode.execute`: delegate to `advanced_search` (modelled by the
`search` parameter) with the rewritten question (falling back to the
original), the extracted years, and the node's `k`; store the documents. -/
def executeRetrieve (search : String → Option (List Int) → Nat → List String)
    (k : Nat) (s : GraphState) : GraphState :=
  let query := s.rewritten_question.getD s.question
  { s with documents := search query s.years k }

/-- A piece of a prompt template as consumed by Python `str.format`: literal
text or one of the two placeholders `{context}` and `{question}`. -/
inductive TmplPiece where
  | lit (s : String)
  | phContext
  | phQuestion
deriving DecidableEq, Repr

/-- `template.format(context=..., question=...)`: substitute the two
placeholders. -/
def formatTmpl (tmpl : List TmplPiece) (context question : String) : String :=
  (tmpl.map (fun p =>
    match p with
    | TmplPiece.lit s => s
    | TmplPiece.phContext => context
    | TmplPiece.phQuestion => question)).foldl (· ++ ·) ""

/-- Python `str.strip()` on `String`. -/
def pyStripStr (s : String) : String :=
  ⟨stripPy s.data⟩

/-- `GenerateNode.execute`: join the retrieved documents with a blank line,
format the prompt template with that context and the *original* question,
call the generation provider (modelled by `llmGenerate prompt system`), and
store the answer stripped of surrounding whitespace. -/
def executeGenerate (llmGenerate : String → String → String)
    (systemPrompt : String) (tmpl : List TmplPiece) (s : GraphState) : GraphState :=
  let context := String.intercalate "\n\n" s.documents
  let prompt := formatTmpl tmpl context s.question
  let answer := llmGenerate prompt systemPrompt
  { s with answer := pyStripStr answer }

end Nodes

namespace VecStore

/-- The payload attached to an indexed point by `add_documents`. -/
structure Payload where
  content : String
  source : String
  year : Option Int
  chunk_index : Nat
deriving DecidableEq, Repr

/-- A stored point as far as retrieval is concerned: an id and a payload.
The stored vectors are abstracted away — retrieval scoring is modelled by
score functions on points (the engine is an external collaborator). -/
structure Point where
  id : Nat
  payload : Payload
deriving DecidableEq, Repr

/-- `models.FieldCondition(key=..., match=models.MatchValue(value=...))`. -/
structure FieldCondition where
  key : String
  matchValue : Int
deriving DecidableEq, Repr

/-- `models.Filter(should=[...])`: a disjunctive filter. -/
structure Filter where
  should : List FieldCondition
deriving DecidableEq, Repr

/-- `QdrantVectorStore._build_year_filter`: `None` or `[]` yield no filter;
otherwise one `should` condition per year matching the `year` payload
field. -/
def buildYearFilter (years : Option (List Int)) : Option Filter :=
  match years with
  | none => none
  | some [] => none
  | some ys => some ⟨ys.map (fun y => ⟨"year", y⟩)⟩

/-- Modelled from the spec: evaluation of a `MatchValue` condition by the
storage engine (an external collaborator) — "payload.year equals the given
value"; a point whose payload lacks the field does not match.  Only the
`year` field is filterable in this model (it is the only indexed payload
field). -/
def matchesCondition (cond : FieldCondition) (p : Point) : Bool :=
  if cond.key = "year" then p.payload.year == some cond.matchValue else false

/-- Modelled from the spec: engine evaluation of an optional `should`
filter — no filter matches everything, a `should` list matches when at least
one condition matches (OR semantics). -/
def matchesFilter (f : Option Filter) (p : Point) : Bool :=
  match f with
  | none => true
  | some f => f.should.any (fun cond => matchesCondition cond p)

/-- Stable insertion into a list sorted by strictly decreasing score: the new
element goes after every strictly better element and before equal ones that
arrived earlier in the scan stay put — together with `sortByScoreDesc` this
gives "ties broken by stable original order". -/
def insertDesc (score : Point → ℚ) (x : Point) : List Point → List Point
  | [] => [x]
  | y :: ys => if score x < score y then y :: insertDesc score x ys else x :: y :: ys

/-- Stable sort by decreasing score. -/
def sortByScoreDesc (score : Point → ℚ) : List Point → List Point
  | [] => []
  | x :: xs => insertDesc score x (sortByScoreDesc score xs)

/-- Modelled from the spec: one `models.Prefetch` branch — a query vector
(abstracted to the scoring function it induces on stored points), an
optional filter, and a candidate limit. -/
structure Prefetch where
  score : Point → ℚ
  filter : Option Filter
  limit : Nat

/-- Modelled from the spec: engine execution of one prefetch branch —
restrict the collection to the filter, rank by decreasing similarity, return
at most `limit` candidates. -/
def runPrefetch (coll : List Point) (pf : Prefetch) : List Point :=
  (sortByScoreDesc pf.score (coll.filter (matchesFilter pf.filter))).take pf.limit

/-- First occurrences by id, preserving order. -/
def dedupById (ps : List Point) : List Point :=
  (ps.foldl (fun acc p => if acc.any (fun q => q.id == p.id) then acc else acc ++ [p]) [])

/-- The rank (1-based) of a point in a ranked list, by id. -/
def rankIn (l : List Point) (p : Point) : Option Nat :=
  match l.findIdx? (fun q => q.id == p.id) with
  | some i => some (i + 1)
  | none => none

/-- Modelled from the spec: the Reciprocal Rank Fusion score of a candidate —
the sum over the ranked lists it appears in of `1 / (rank + K)`; lists it is
missing from contribute zero. -/
def rrfScore (K : Nat) (lists : List (List Point)) (p : Point) : ℚ :=
  (lists.map (fun l =>
    match rankIn l p with
    | some r => (1 : ℚ) / ((r : ℚ) + (K : ℚ))
    | none => 0)).sum

/-- Modelled from the spec: RRF fusion of ranked candidate lists — the
candidates, in stable first-appearance order, sorted by decreasing fused
score. -/
def rrfFuse (K : Nat) (lists : List (List Point)) : List Point :=
  sortByScoreDesc (rrfScore K lists) (dedupById lists.flatten)

/-- Modelled from the spec: `client.query_points` with prefetch branches and
`models.FusionQuery(fusion=models.Fusion.RRF)` — run each prefetch, fuse
with RRF, return the top `limit`. -/
def queryPointsFused (K : Nat) (coll : List Point) (prefetches : List Prefetch)
    (limit : Nat) : List Point :=
  (rrfFuse K (prefetches.map (runPrefetch coll))).take limit

/-- `QdrantVectorStore.advanced_search`: embed the query densely and
sparsely (abstracted to the two induced scoring functions `ds` and `ss`),
build the optional year filter, query with two prefetch branches of limit
`k * 2` sharing that filter, fuse with RRF, limit `k`, and return the
payload `content` of each hit. -/
def advancedSearch (K : Nat) (ds ss : Point → ℚ) (coll : List Point)
    (years : Option (List Int)) (k : Nat) : List String :=
  let queryFilter := buildYearFilter years
  (queryPointsFused K coll
      [⟨ds, queryFilter, k * 2⟩, ⟨ss, queryFilter, k * 2⟩] k).map
    (fun p => p.payload.content)

/-- The year predicate exactly as claim C1 words it: when `years` is `None`
or empty no filtering occurs; otherwise a point passes iff its payload
`year` equals any one of the given years (OR across years). -/
def claimYearMatch (years : Option (List Int)) (p : Point) : Bool :=
  match years with
  | none => true
  | some ys => ys.isEmpty || ys.any (fun y => p.payload.year == some y)

/-- The configuration of a collection, as far as the claims are concerned. -/
structure CollectionCfg where
  name : String
  denseSize : Nat
  hasSparse : Bool
  payloadIndexes : List String
deriving DecidableEq, Repr

/-- The state of the storage engine: the collections it holds. -/
structure StoreState where
  collections : List CollectionCfg
deriving DecidableEq, Repr

/-- Names of existing collections (`client.get_collections()`). -/
def collectionNames (st : StoreState) : List String :=
  st.collections.map (fun c => c.name)

/-- `QdrantVectorStore._ensure_collection`: return unchanged if the name
exists; otherwise create the collection with a dense space of hardcoded
size 768 (cosine distance) and a sparse space.  No payload index is
created. -/
def vsEnsureCollection (name : String) (st : StoreState) : StoreState :=
  if name ∈ collectionNames st then st
  else { st with collections := st.collections ++ [⟨name, 768, true, []⟩] }

/-- `client.create_payload_index(collection_name, field_name, ...)`: record
the field as indexed on the named collection. -/
def createPayloadIndex (name field : String) (st : StoreState) : StoreState :=
  { st with
    collections := st.collections.map (fun c =>
      if c.name = name then { c with payloadIndexes := c.payloadIndexes ++ [field] }
      else c) }

/-- `IngestionService._ensure_collection`: return unchanged if the collection
exists; otherwise embed the probe string `"test"`, create the collection
with a dense space of the probe embedding's length and a sparse space, then
create the integer payload index on `year`. -/
def ingEnsureCollection (embedQuery : String → List ℚ) (name : String)
    (st : StoreState) : StoreState :=
  if name ∈ collectionNames st then st
  else
    let vectorSize := (embedQuery "test").length
    let created :=
      { st with collections := st.collections ++ [⟨name, vectorSize, true, []⟩] }
    createPayloadIndex name "year" created

/-- A document handed to `add_documents`: the `doc` dictionary's fields, with
optional keys optional. -/
structure Doc where
  content : String
  source : Option String
  year : Option Int
  chunk_index : Option Nat
deriving DecidableEq, Repr

/-- A point as upserted by `add_documents`: id, both vectors, payload. -/
structure StoredPoint where
  id : Nat
  dense : List ℚ
  sparse : List (Nat × ℚ)
  payload : Payload
deriving DecidableEq, Repr

/-- Modelled from the spec: `client.upsert` of a single point — replace the
point with the same id if present, append otherwise. -/
def upsertOne (coll : List StoredPoint) (p : StoredPoint) : List StoredPoint :=
  if coll.any (fun q => q.id == p.id) then
    coll.map (fun q => if q.id == p.id then p else q)
  else coll ++ [p]

/-- Modelled from the spec: `client.upsert` of a batch. -/
def upsertPoints (coll : List StoredPoint) (ps : List StoredPoint) : List StoredPoint :=
  ps.foldl upsertOne coll

/-- The points built by one `QdrantVectorStore.add_documents` call: ids are
the `enumerate` indices `0, 1, ...`; dense and sparse vectors are both
embeddings of `doc["content"]`; the payload carries content, source
(default `""`), year and chunk index (default `0`). -/
def buildPoints (dense : String → List ℚ) (sparse : String → List (Nat × ℚ))
    (docs : List Doc) : List StoredPoint :=
  (List.range docs.length).zip docs |>.map (fun (idx, d) =>
    ⟨idx, dense d.content, sparse d.content,
      ⟨d.content, d.source.getD "", d.year, d.chunk_index.getD 0⟩⟩)

/-- `QdrantVectorStore.add_documents`: build the points and upsert the batch.
The upsert uses the client's acknowledged-write default, so in this
sequential model the returned collection is the post-write state. -/
def addDocuments (dense : String → List ℚ) (sparse : String → List (Nat × ℚ))
    (docs : List Doc) (coll : List StoredPoint) : List StoredPoint :=
  upsertPoints coll (buildPoints dense sparse docs)

end VecStore

/-! ## Helper lemmas -/

namespace VecStore

theorem mem_upsertOne_self (coll : List StoredPoint) (p : StoredPoint) :
    p ∈ upsertOne coll p := by
  unfold upsertOne
  by_cases h : coll.any (fun q => q.id == p.id)
  · simp only [h, if_true]
    obtain ⟨q, hq, hid⟩ := List.any_eq_true.mp h
    exact List.mem_map.mpr ⟨q, hq, by simp [hid]⟩
  · simp [h]

theorem mem_upsertOne_of_ne (coll : List StoredPoint) (p q : StoredPoint)
    (hq : q ∈ coll) (hne : q.id ≠ p.id) : q ∈ upsertOne coll p := by
  unfold upsertOne
  by_cases h : coll.any (fun r => r.id == p.id)
  · simp only [h, if_true]
    exact List.mem_map.mpr ⟨q, hq, by simp [hne]⟩
  · simp only [h, if_false]
    exact List.mem_append_left _ hq

theorem mem_upsertPoints_of_ne (ps : List StoredPoint) :
    ∀ (coll : List StoredPoint) (q : StoredPoint), q ∈ coll →
      (∀ p ∈ ps, q.id ≠ p.id) → q ∈ upsertPoints coll ps := by
  induction ps with
  | nil => intro coll q hq _; exact hq
  | cons a ps ih =>
    intro coll q hq hne
    exact ih _ q (mem_upsertOne_of_ne coll a q hq (hne a (List.mem_cons_self a ps)))
      (fun p hp => hne p (List.mem_cons_of_mem a hp))

theorem mem_upsertPoints_of_mem_batch (ps : List StoredPoint) :
    ∀ (coll : List StoredPoint), (ps.map (fun p => p.id)).Nodup →
      ∀ p ∈ ps, p ∈ upsertPoints coll ps := by
  induction ps with
  | nil => intro _ _ p hp; cases hp
  | cons a ps ih =>
    intro coll hnd p hp
    have hnd' := hnd
    rw [List.map_cons, List.nodup_cons] at hnd'
    rcases List.mem_cons.mp hp with rfl | hp'
    · refine mem_upsertPoints_of_ne ps (upsertOne coll p) p (mem_upsertOne_self coll p) ?_
      intro q hq hcontra
      exact hnd'.1 (hcontra ▸ List.mem_map.mpr ⟨q, hq, rfl⟩)
    · exact ih (upsertOne coll a) hnd'.2 p hp'

theorem buildPoints_map_id (dense : String → List ℚ)
    (sparse : String → List (Nat × ℚ)) (docs : List Doc) :
    (buildPoints dense sparse docs).map (fun p => p.id) = List.range docs.length := by
  unfold buildPoints
  rw [List.map_map]
  have : ((List.range docs.length).zip docs).map
      ((fun p => p.id) ∘ (fun (pr : Nat × Doc) =>
        (⟨pr.1, dense pr.2.content, sparse pr.2.content,
          ⟨pr.2.content, pr.2.source.getD "", pr.2.year, pr.2.chunk_index.getD 0⟩⟩ :
          StoredPoint))) =
      ((List.range docs.length).zip docs).map Prod.fst := by
    apply List.map_congr_left
    intro pr _
    rfl
  rw [this, List.map_fst_zip]
  exact le_of_eq (List.length_range docs.length)

end VecStore

/-! ## Claim theorems -/

/-- C2: on any failure of the structured-extraction call, `RewriteNode.execute`
sets `rewritten_question` to the unmodified input question and `years` to
`None`, leaves every other field of the state as received, and (being a total
function in the model) never raises. -/
theorem rewrite_failure_falls_back {ε : Type} (e : ε) (s : Nodes.GraphState) :
    Nodes.executeRewrite (Except.error e) s =
      { s with rewritten_question := some s.question, years := none } := rfl

/-- C10: each stage leaves `question` unchanged and writes only its own
output fields — `RewriteNode.execute` only `rewritten_question` and `years`,
`RetrieveNode.execute` only `documents`, `GenerateNode.execute` only
`answer`; all other fields are returned exactly as received. -/
theorem nodes_frame_conditions {ε : Type} (result : Except ε Nodes.RewriteOutput)
    (search : String → Option (List Int) → Nat → List String) (k : Nat)
    (llmGenerate : String → String → String) (systemPrompt : String)
    (tmpl : List Nodes.TmplPiece) (s : Nodes.GraphState) :
    ((Nodes.executeRewrite result s).question = s.question ∧
      (Nodes.executeRewrite result s).documents = s.documents ∧
      (Nodes.executeRewrite result s).answer = s.answer) ∧
    ((Nodes.executeRetrieve search k s).question = s.question ∧
      (Nodes.executeRetrieve search k s).rewritten_question = s.rewritten_question ∧
      (Nodes.executeRetrieve search k s).years = s.years ∧
      (Nodes.executeRetrieve search k s).answer = s.answer) ∧
    ((Nodes.executeGenerate llmGenerate systemPrompt tmpl s).question = s.question ∧
      (Nodes.executeGenerate llmGenerate systemPrompt tmpl s).rewritten_question =
        s.rewritten_question ∧
      (Nodes.executeGenerate llmGenerate systemPrompt tmpl s).documents = s.documents ∧
      (Nodes.executeGenerate llmGenerate systemPrompt tmpl s).years = s.years) := by
  refine ⟨?_, ⟨rfl, rfl, rfl, rfl⟩, rfl, rfl, rfl, rfl⟩
  cases result <;> exact ⟨rfl, rfl, rfl⟩

/-- C8: `GenerateNode.execute` joins the passages with a blank line into one
context block, formats the fixed template with that block and the *original*
question, stores the provider's output stripped of surrounding whitespace,
and with an empty passage list still issues the generation call with an
empty context block. -/
theorem generate_contract (llmGenerate : String → String → String)
    (systemPrompt : String) (tmpl : List Nodes.TmplPiece) (s : Nodes.GraphState) :
    Nodes.executeGenerate llmGenerate systemPrompt tmpl s =
      { s with
        answer := Nodes.pyStripStr (llmGenerate
          (Nodes.formatTmpl tmpl (String.intercalate "\n\n" s.documents) s.question)
          systemPrompt) } ∧
    (s.documents = [] →
      Nodes.executeGenerate llmGenerate systemPrompt tmpl s =
        { s with
          answer := Nodes.pyStripStr (llmGenerate
            (Nodes.formatTmpl tmpl "" s.question) systemPrompt) }) := by
  refine ⟨rfl, fun h => ?_⟩
  simp only [Nodes.executeGenerate, h]
  rfl

/-- Witness for C8 at a concrete state with no retrieved passages. -/
theorem generate_contract_witness :
    Nodes.executeGenerate (fun p _ => p) "sys" [Nodes.TmplPiece.phQuestion]
        ⟨"q", none, [], "", none⟩ =
      { (⟨"q", none, [], "", none⟩ : Nodes.GraphState) with
        answer := Nodes.pyStripStr ((fun (p : String) (_ : String) => p)
          (Nodes.formatTmpl [Nodes.TmplPiece.phQuestion] "" "q") "sys") } :=
  (generate_contract (fun p _ => p) "sys" [Nodes.TmplPiece.phQuestion]
    ⟨"q", none, [], "", none⟩).2 rfl

/-- C9: `ChunkerFactory.create` fails with a `ValueError` for every strategy
name other than `"markdown"` and `"recursive"`, and returns a chunker of the
corresponding kind for those two names. -/
theorem chunker_factory_spec :
    (∀ s : String, s ≠ "markdown" → s ≠ "recursive" →
      Chunk.createChunker s = Except.error ("Unknown chunking strategy: " ++ s ++
        ". Available strategies: ['markdown', 'recursive']")) ∧
    Chunk.createChunker "markdown" = Except.ok Chunk.ChunkerKind.markdown ∧
    Chunk.createChunker "recursive" = Except.ok Chunk.ChunkerKind.recursive := by
  refine ⟨fun s h1 h2 => ?_, rfl, rfl⟩
  have b1 : (s == "markdown") = false := beq_eq_false_iff_ne.mpr h1
  have b2 : (s == "recursive") = false := beq_eq_false_iff_ne.mpr h2
  simp [Chunk.createChunker, Chunk.chunkerRegistry, List.lookup, b1, b2]

/-- Witness for C9 at the concrete unknown strategy name `"semantic"`. -/
theorem chunker_factory_spec_witness :
    Chunk.createChunker "semantic" = Except.error ("Unknown chunking strategy: " ++
      "semantic" ++ ". Available strategies: ['markdown', 'recursive']") ∧
    Chunk.createChunker "markdown" = Except.ok Chunk.ChunkerKind.markdown :=
  ⟨chunker_factory_spec.1 "semantic" (by decide) (by decide), chunker_factory_spec.2.1⟩

/-- C1: `advanced_search` builds one optional year filter with OR/should
semantics (a point passes iff `payload.year` equals any one of the given
years; no filter at all when `years` is `None` or empty), applies it to both
the dense and the sparse prefetch, retrieves up to `2 * k` candidates from
each space, fuses the two ranked lists with Reciprocal Rank Fusion, and
returns the contents of at most `k` fused hits. -/
theorem advanced_search_spec (K : Nat) (ds ss : VecStore.Point → ℚ)
    (coll : List VecStore.Point) (years : Option (List Int)) (k : Nat) :
    (∀ p, VecStore.matchesFilter (VecStore.buildYearFilter years) p =
      VecStore.claimYearMatch years p) ∧
    VecStore.advancedSearch K ds ss coll years k =
      ((VecStore.rrfFuse K
          [(VecStore.sortByScoreDesc ds
              (coll.filter (VecStore.claimYearMatch years))).take (k * 2),
            (VecStore.sortByScoreDesc ss
              (coll.filter (VecStore.claimYearMatch years))).take (k * 2)]).take k).map
        (fun p => p.payload.content) ∧
    (VecStore.advancedSearch K ds ss coll years k).length ≤ k := by
  have hany : ∀ (ys : List Int) (p : VecStore.Point),
      ((ys.map (fun y => (⟨"year", y⟩ : VecStore.FieldCondition))).any
        (fun cond => VecStore.matchesCondition cond p)) =
      ys.any (fun y => p.payload.year == some y) := by
    intro ys p
    induction ys with
    | nil => rfl
    | cons y ys ih =>
      simp only [List.map_cons, List.any_cons, VecStore.matchesCondition] at ih ⊢
      rw [ih]
      simp
  have hfilt : ∀ p, VecStore.matchesFilter (VecStore.buildYearFilter years) p =
      VecStore.claimYearMatch years p := by
    intro p
    match years with
    | none => rfl
    | some [] => rfl
    | some (y :: ys) =>
      simp only [VecStore.buildYearFilter, VecStore.matchesFilter,
        VecStore.claimYearMatch, hany (y :: ys) p, List.isEmpty_cons,
        Bool.false_or]
  have hcoll : coll.filter (VecStore.matchesFilter (VecStore.buildYearFilter years)) =
      coll.filter (VecStore.claimYearMatch years) :=
    List.filter_congr (fun p _ => hfilt p)
  refine ⟨hfilt, ?_, ?_⟩
  · unfold VecStore.advancedSearch VecStore.queryPointsFused VecStore.runPrefetch
    simp only [List.map_cons, List.map_nil, hcoll]
  · unfold VecStore.advancedSearch VecStore.queryPointsFused
    rw [List.length_map]
    exact (List.length_take _ _).le.trans (min_le_left _ _)

/-- C3 counterexample: `QdrantVectorStore._ensure_collection` creates the
missing collection with a hardcoded dense size of 768 — not the
dimensionality of a probe embedding (here a provider of dimensionality 4) —
and creates no payload index on `year`. -/
theorem ensure_collection_hardcoded_cex :
    VecStore.vsEnsureCollection "documents" ⟨[]⟩ =
      ⟨[⟨"documents", 768, true, []⟩]⟩ ∧
    ((fun (_ : String) => ([0, 0, 0, 0] : List ℚ)) "test").length = 4 ∧
    (768 : Nat) ≠ 4 := by
  refine ⟨by decide, rfl, by decide⟩


/-- C3 (amended): both `_ensure_collection` implementations check existence
by name, leave an existing collection untouched, and are idempotent; when
the collection is absent, the ingestion service creates it with a dense
space sized by embedding the probe string `"test"`, a sparse space, and a
payload index on `year`, while the vector-store version creates it with a
hardcoded dense size of 768, a sparse space, and no payload index. -/
theorem ensure_collection_amended (embed : String → List ℚ) (name : String)
    (st : VecStore.StoreState) :
    (name ∈ VecStore.collectionNames st →
      VecStore.vsEnsureCollection name st = st ∧
      VecStore.ingEnsureCollection embed name st = st) ∧
    (name ∉ VecStore.collectionNames st →
      VecStore.vsEnsureCollection name st =
        ⟨st.collections ++ [⟨name, 768, true, []⟩]⟩ ∧
      VecStore.ingEnsureCollection embed name st =
        ⟨st.collections ++ [⟨name, (embed "test").length, true, ["year"]⟩]⟩) ∧
    VecStore.vsEnsureCollection name (VecStore.vsEnsureCollection name st) =
      VecStore.vsEnsureCollection name st ∧
    VecStore.ingEnsureCollection embed name
        (VecStore.ingEnsureCollection embed name st) =
      VecStore.ingEnsureCollection embed name st := by
  have hfix_vs : ∀ st' : VecStore.StoreState, name ∈ VecStore.collectionNames st' →
      VecStore.vsEnsureCollection name st' = st' := by
    intro st' h
    unfold VecStore.vsEnsureCollection
    rw [if_pos h]
  have hfix_ing : ∀ st' : VecStore.StoreState, name ∈ VecStore.collectionNames st' →
      VecStore.ingEnsureCollection embed name st' = st' := by
    intro st' h
    unfold VecStore.ingEnsureCollection
    rw [if_pos h]
  have habsent : name ∉ VecStore.collectionNames st →
      VecStore.ingEnsureCollection embed name st =
        ⟨st.collections ++ [⟨name, (embed "test").length, true, ["year"]⟩]⟩ := by
    intro h
    have hne : ∀ c ∈ st.collections, c.name ≠ name := by
      intro c hc heq
      exact h (List.mem_map.mpr ⟨c, hc, heq⟩)
    unfold VecStore.ingEnsureCollection
    rw [if_neg h]
    unfold VecStore.createPayloadIndex
    simp only [List.map_append]
    have h1 : st.collections.map (fun c : VecStore.CollectionCfg =>
        if c.name = name then
          { c with payloadIndexes := c.payloadIndexes ++ ["year"] }
        else c) = st.collections := by
      conv_rhs => rw [show st.collections = st.collections.map id from (List.map_id _).symm]
      apply List.map_congr_left
      intro c hc
      simp only [id_eq, if_neg (hne c hc)]
    have h2 : ([(⟨name, (embed "test").length, true, []⟩ : VecStore.CollectionCfg)].map
        (fun c : VecStore.CollectionCfg =>
          if c.name = name then
            { c with payloadIndexes := c.payloadIndexes ++ ["year"] }
          else c)) = [⟨name, (embed "test").length, true, ["year"]⟩] := by
      simp
    rw [h1, h2]
  have habsent_vs : name ∉ VecStore.collectionNames st →
      VecStore.vsEnsureCollection name st =
        ⟨st.collections ++ [⟨name, 768, true, []⟩]⟩ := by
    intro h
    unfold VecStore.vsEnsureCollection
    rw [if_neg h]
  have hmem_vs : name ∈ VecStore.collectionNames (VecStore.vsEnsureCollection name st) := by
    by_cases h : name ∈ VecStore.collectionNames st
    · rw [hfix_vs st h]; exact h
    · rw [habsent_vs h]
      unfold VecStore.collectionNames
      rw [List.map_append]
      exact List.mem_append_right _ (by simp)
  have hmem_ing : name ∈ VecStore.collectionNames
      (VecStore.ingEnsureCollection embed name st) := by
    by_cases h : name ∈ VecStore.collectionNames st
    · rw [hfix_ing st h]; exact h
    · rw [habsent h]
      unfold VecStore.collectionNames
      rw [List.map_append]
      exact List.mem_append_right _ (by simp)
  exact ⟨fun h => ⟨hfix_vs st h, hfix_ing st h⟩,
    fun h => ⟨habsent_vs h, habsent h⟩,
    hfix_vs _ hmem_vs, hfix_ing _ hmem_ing⟩

/-- Witness for C3 (amended): an existing collection is untouched, and a
missing one is created with probed size 3 and a `year` index by the
ingestion service. -/
theorem ensure_collection_amended_witness :
    (VecStore.vsEnsureCollection "existing" ⟨[⟨"existing", 3, true, []⟩]⟩ =
        ⟨[⟨"existing", 3, true, []⟩]⟩ ∧
      VecStore.ingEnsureCollection (fun _ => [1, 2, 3]) "existing"
          ⟨[⟨"existing", 3, true, []⟩]⟩ =
        ⟨[⟨"existing", 3, true, []⟩]⟩) ∧
    VecStore.ingEnsureCollection (fun _ => [1, 2, 3]) "fresh"
        ⟨[⟨"existing", 3, true, []⟩]⟩ =
      ⟨[⟨"existing", 3, true, []⟩,
        ⟨"fresh", ((fun (_ : String) => ([1, 2, 3] : List ℚ)) "test").length, true,
          ["year"]⟩]⟩ :=
  ⟨(ensure_collection_amended (fun _ => [1, 2, 3]) "existing"
      ⟨[⟨"existing", 3, true, []⟩]⟩).1 (by decide),
    ((ensure_collection_amended (fun _ => [1, 2, 3]) "fresh"
      ⟨[⟨"existing", 3, true, []⟩]⟩).2.1 (by decide)).2⟩

/-- C4 counterexample: two successive `add_documents` calls both assign ids
from `enumerate` starting at 0, so the second call's point overwrites the
first call's point — the final collection holds only the second document. -/
theorem add_documents_overwrites_cex :
    VecStore.addDocuments (fun s => [(s.length : ℚ)])
        (fun s => [(0, (s.length : ℚ))]) [⟨"doc B", none, none, none⟩]
        (VecStore.addDocuments (fun s => [(s.length : ℚ)])
          (fun s => [(0, (s.length : ℚ))]) [⟨"doc A", none, some 2021, none⟩] []) =
      [⟨0, [5], [(0, 5)], ⟨"doc B", "", none, 0⟩⟩] := by
  decide

/-- C4 (amended): within a single `add_documents` call the upserted points
get the distinct ids `0, ..., n-1`, each point's dense and sparse vectors
are embeddings of the same `content` string that its payload carries
(together with source, year and chunk index, suitably defaulted), and after
the acknowledged upsert every point of the call is present in the
collection; ids are however reused across calls (see the counterexample),
so a later call can overwrite an earlier call's points. -/
theorem add_documents_amended (dense : String → List ℚ)
    (sparse : String → List (Nat × ℚ)) (docs : List VecStore.Doc)
    (coll : List VecStore.StoredPoint) :
    ((VecStore.buildPoints dense sparse docs).map (fun p => p.id) =
      List.range docs.length) ∧
    (∀ p ∈ VecStore.buildPoints dense sparse docs,
      p.dense = dense p.payload.content ∧ p.sparse = sparse p.payload.content ∧
      ∃ d ∈ docs, p.payload =
        ⟨d.content, d.source.getD "", d.year, d.chunk_index.getD 0⟩) ∧
    (∀ p ∈ VecStore.buildPoints dense sparse docs,
      p ∈ VecStore.addDocuments dense sparse docs coll) := by
  refine ⟨VecStore.buildPoints_map_id dense sparse docs, ?_, ?_⟩
  · intro p hp
    obtain ⟨⟨idx, d⟩, hmem, rfl⟩ := List.mem_map.mp hp
    exact ⟨rfl, rfl, d, (List.of_mem_zip hmem).2, rfl⟩
  · intro p hp
    apply VecStore.mem_upsertPoints_of_mem_batch _ coll _ p hp
    rw [VecStore.buildPoints_map_id]
    exact List.nodup_range _

namespace ScanLemmas

theorem takeWhile_append_all {α : Type} (p : α → Bool) (bs post : List α)
    (h1 : ∀ a ∈ bs, p a = true) (h2 : ∀ a ∈ post.take 1, p a = false) :
    (bs ++ post).takeWhile p = bs := by
  induction bs with
  | nil =>
    cases post with
    | nil => rfl
    | cons q qs => simp [List.takeWhile_cons, h2 q (by simp)]
  | cons b bs ih =>
    simp [List.takeWhile_cons, h1 b (by simp),
      ih (fun a ha => h1 a (List.mem_cons_of_mem b ha))]

theorem dropWhile_append_all {α : Type} (p : α → Bool) (bs post : List α)
    (h1 : ∀ a ∈ bs, p a = true) (h2 : ∀ a ∈ post.take 1, p a = false) :
    (bs ++ post).dropWhile p = post := by
  induction bs with
  | nil =>
    cases post with
    | nil => rfl
    | cons q qs => simp [List.dropWhile_cons, h2 q (by simp)]
  | cons b bs ih =>
    simp [List.dropWhile_cons, h1 b (by simp),
      ih (fun a ha => h1 a (List.mem_cons_of_mem b ha))]

theorem take_one_dropWhile_false {α : Type} (p : α → Bool) (l : List α) :
    ∀ a ∈ (l.dropWhile p).take 1, p a = false := by
  induction l with
  | nil => intro a ha; cases ha
  | cons b bs ih =>
    rw [List.dropWhile_cons]
    by_cases hb : p b = true
    · simpa [hb] using ih
    · have hb' : p b = false := by
        rw [Bool.not_eq_true] at hb
        exact hb
      intro a ha
      simp [hb'] at ha
      rw [ha, hb']

end ScanLemmas

namespace Cleaner

theorem retGo_skip (ws rest : List (List Char)) :
    retGo ws.length (ws ++ rest) = retGo 0 rest := by
  induction ws with
  | nil => rfl
  | cons w ws ih => simpa [retGo] using ih

theorem removeEmptyTablesLines_block (pre block post : List (List Char))
    (hpre : ∀ l ∈ pre, isPipeLine l = false)
    (hb1 : block ≠ [])
    (hb2 : ∀ l ∈ block, isPipeLine l = true)
    (hpost : ∀ l ∈ post.take 1, isPipeLine l = false) :
    removeEmptyTablesLines (pre ++ block ++ post) =
      pre ++ (if keepBlock block then block else []) ++ removeEmptyTablesLines post := by
  induction pre with
  | nil =>
    cases block with
    | nil => exact absurd rfl hb1
    | cons l bs =>
      have hbs : ∀ a ∈ bs, isPipeLine a = true :=
        fun a ha => hb2 a (List.mem_cons_of_mem l ha)
      have htake : (bs ++ post).takeWhile isPipeLine = bs :=
        ScanLemmas.takeWhile_append_all isPipeLine bs post hbs hpost
      show retGo 0 (l :: (bs ++ post)) = _
      rw [retGo]
      rw [if_pos (hb2 l (List.mem_cons_self l bs))]
      simp only [htake, retGo_skip bs post, removeEmptyTablesLines, List.nil_append]
  | cons q pre ih =>
    have hq : isPipeLine q = false := hpre q (List.mem_cons_self q pre)
    show retGo 0 (q :: (pre ++ block ++ post)) = _
    rw [retGo, if_neg (by rw [hq]; exact Bool.false_ne_true)]
    rw [show retGo 0 (pre ++ block ++ post) =
      removeEmptyTablesLines (pre ++ block ++ post) from rfl]
    rw [ih (fun a ha => hpre a (List.mem_cons_of_mem q ha))]
    rfl

end Cleaner

/-- C6 counterexample: the single-row table block `"| x | 1 |"` has exactly
50% noise cells (`x` is noise, `1` is not), yet the cleaner retains it —
refuting removal "when at least 50% of its non-separator cells are noise";
the code removes only strictly above 50%. -/
theorem remove_empty_tables_half_noise_retained_cex :
    Cleaner.removeEmptyTables "| x | 1 |".data = "| x | 1 |".data ∧
    2 * Cleaner.noiseCells ["| x | 1 |".data] = Cleaner.totalCells ["| x | 1 |".data] := by
  constructor
  · decide
  · decide

/-- C6 (amended): a maximal contiguous run of pipe-framed lines is removed
entirely exactly when *strictly more* than 50% of its non-separator cells
are noise (`2 * noise > total`), and fully retained — separator rows
included, which are excluded from the ratio — when at most 50% are noise;
a cell is noise iff, after trimming, it is empty or has no digit and no run
of two or more Latin-range letters. -/
theorem remove_empty_tables_amended (pre block post : List (List Char))
    (hpre : ∀ l ∈ pre, Cleaner.isPipeLine l = false)
    (hb1 : block ≠ [])
    (hb2 : ∀ l ∈ block, Cleaner.isPipeLine l = true)
    (hpost : ∀ l ∈ post.take 1, Cleaner.isPipeLine l = false) :
    Cleaner.removeEmptyTablesLines (pre ++ block ++ post) =
      pre ++ (if 2 * Cleaner.noiseCells block ≤ Cleaner.totalCells block
        then block else []) ++ Cleaner.removeEmptyTablesLines post ∧
    ∀ cell, Cleaner.isTableCellNoise cell =
      ((PyStr.stripPy cell).isEmpty ||
        (!(PyStr.stripPy cell).any PyStr.isDigitPy &&
          !Cleaner.hasLatinRun (PyStr.stripPy cell))) := by
  constructor
  · have h := Cleaner.removeEmptyTablesLines_block pre block post hpre hb1 hb2 hpost
    rw [h]
    congr 2
    unfold Cleaner.keepBlock
    by_cases hk : 2 * Cleaner.noiseCells block ≤ Cleaner.totalCells block
    · rw [if_pos hk, if_pos (by exact decide_eq_true hk)]
    · rw [if_neg hk, if_neg (by simpa using hk)]
  · intro cell
    unfold Cleaner.isTableCellNoise
    cases h1 : (PyStr.stripPy cell).isEmpty <;>
      cases h2 : (PyStr.stripPy cell).any PyStr.isDigitPy <;>
        cases h3 : Cleaner.hasLatinRun (PyStr.stripPy cell) <;>
          simp [h1, h2, h3]

/-- Witness for C6 (amended) on a concrete text: a block with 3 noise cells
out of 4 (strictly above half) sitting between two non-table lines is
removed entirely. -/
theorem remove_empty_tables_amended_witness :
    Cleaner.removeEmptyTablesLines (["keep".data] ++
        ["| a | b |".data, "|---|---|".data, "| 1.0 | x |".data] ++ ["after".data]) =
      ["keep".data] ++ (if 2 * Cleaner.noiseCells
          ["| a | b |".data, "|---|---|".data, "| 1.0 | x |".data] ≤
          Cleaner.totalCells ["| a | b |".data, "|---|---|".data, "| 1.0 | x |".data]
        then ["| a | b |".data, "|---|---|".data, "| 1.0 | x |".data] else []) ++
        Cleaner.removeEmptyTablesLines ["after".data] :=
  (remove_empty_tables_amended ["keep".data]
    ["| a | b |".data, "|---|---|".data, "| 1.0 | x |".data] ["after".data]
    (by decide) (by decide) (by decide) (by decide)).1

/-- Witness for C4 (amended) at a one-document call on an empty collection:
the id list is `[0]` and the built point is present after the upsert. -/
theorem add_documents_amended_witness :
    (VecStore.buildPoints (fun _ => [(1 : ℚ)]) (fun _ => [(0, (1 : ℚ))])
        [⟨"a", none, some 2020, none⟩]).map (fun p => p.id) = List.range 1 ∧
    (⟨0, [(1 : ℚ)], [(0, (1 : ℚ))], ⟨"a", "", some 2020, 0⟩⟩ : VecStore.StoredPoint) ∈
      VecStore.addDocuments (fun _ => [(1 : ℚ)]) (fun _ => [(0, (1 : ℚ))])
        [⟨"a", none, some 2020, none⟩] [] :=
  ⟨(add_documents_amended (fun _ => [(1 : ℚ)]) (fun _ => [(0, (1 : ℚ))])
      [⟨"a", none, some 2020, none⟩] []).1,
    (add_documents_amended (fun _ => [(1 : ℚ)]) (fun _ => [(0, (1 : ℚ))])
      [⟨"a", none, some 2020, none⟩] []).2.2 _ (by decide)⟩

namespace Cleaner

open PyStr

theorem wrGo_eq (x : List Char) : ∀ (b : Bool) (acc : List Char),
    wrGo b acc x =
      (b, acc.reverse ++ x.takeWhile (fun d => isWordCharPy d == b)) ::
        wordRuns (x.dropWhile (fun d => isWordCharPy d == b)) := by
  induction x with
  | nil => intro b acc; simp [wrGo, wordRuns]
  | cons c rest ih =>
    intro b acc
    by_cases h : isWordCharPy c = b
    · rw [wrGo, if_pos h, ih b (c :: acc)]
      simp [List.takeWhile_cons, List.dropWhile_cons, h]
    · have hb : (isWordCharPy c == b) = false := by simp [h]
      rw [wrGo, if_neg h]
      simp only [List.takeWhile_cons, List.dropWhile_cons, hb, Bool.false_eq_true,
        if_false, List.append_nil]
      rfl

theorem wordRuns_cons (c : Char) (rest : List Char) :
    wordRuns (c :: rest) =
      (isWordCharPy c,
        c :: rest.takeWhile (fun d => isWordCharPy d == isWordCharPy c)) ::
        wordRuns (rest.dropWhile (fun d => isWordCharPy d == isWordCharPy c)) := by
  show wrGo (isWordCharPy c) [c] rest = _
  rw [wrGo_eq rest (isWordCharPy c) [c]]
  rfl

/-- The long-run removal function applied to one run entry. -/
theorem rsw_def (t : Nat) (x : List Char) :
    removeSuspiciousLongWords t x =
      ((wordRuns x).map (fun bg =>
        if bg.1 && isLongAlpha t bg.2 then [] else bg.2)).flatten := rfl

theorem flat_split_nonword (t : Nat) (x : List Char) :
    removeSuspiciousLongWords t x =
      x.takeWhile (fun d => isWordCharPy d == false) ++
        removeSuspiciousLongWords t
          (x.dropWhile (fun d => isWordCharPy d == false)) := by
  cases x with
  | nil => rfl
  | cons d x' =>
    by_cases hd : isWordCharPy d = false
    · rw [rsw_def, wordRuns_cons, hd]
      simp only [List.map_cons, List.flatten_cons, Bool.false_and,
        Bool.false_eq_true, if_false]
      rw [List.takeWhile_cons, List.dropWhile_cons]
      simp only [hd, beq_self_eq_true, if_true, List.cons_append]
      rfl
    · have hd' : (isWordCharPy d == false) = false := by simp [hd]
      rw [List.takeWhile_cons, List.dropWhile_cons]
      simp [hd']

theorem rsw_cons_nonword (t : Nat) (c : Char) (x : List Char)
    (hc : isWordCharPy c = false) :
    removeSuspiciousLongWords t (c :: x) = c :: removeSuspiciousLongWords t x := by
  rw [rsw_def, wordRuns_cons, hc]
  simp only [List.map_cons, List.flatten_cons, Bool.false_and, Bool.false_eq_true,
    if_false, List.cons_append]
  rw [← rsw_def]
  rw [flat_split_nonword t x]

theorem tok_def (x : List Char) :
    pyTokens x = (wordRuns x).filterMap
      (fun bg => if bg.1 then some bg.2 else none) := rfl

theorem tok_split_nonword (x : List Char) :
    pyTokens x = pyTokens (x.dropWhile (fun d => isWordCharPy d == false)) := by
  cases x with
  | nil => rfl
  | cons d x' =>
    by_cases hd : isWordCharPy d = false
    · rw [tok_def, wordRuns_cons, hd]
      simp only [List.filterMap_cons, Bool.false_eq_true, if_false]
      rw [List.dropWhile_cons]
      simp only [hd, beq_self_eq_true, if_true]
      rfl
    · have hd' : (isWordCharPy d == false) = false := by simp [hd]
      rw [List.dropWhile_cons]
      simp [hd']

theorem tok_cons_nonword (c : Char) (x : List Char)
    (hc : isWordCharPy c = false) : pyTokens (c :: x) = pyTokens x := by
  rw [tok_def, wordRuns_cons, hc]
  simp only [List.filterMap_cons, Bool.false_eq_true, if_false]
  rw [← tok_def, ← tok_split_nonword x]

theorem tok_append_word (g y : List Char) (hg : g ≠ [])
    (hgw : ∀ d ∈ g, isWordCharPy d = true)
    (hy : ∀ d ∈ y.take 1, isWordCharPy d = false) :
    pyTokens (g ++ y) = g :: pyTokens y := by
  cases g with
  | nil => exact absurd rfl hg
  | cons c g' =>
    have hc : isWordCharPy c = true := hgw c (by simp)
    have htake : (g' ++ y).takeWhile (fun d => isWordCharPy d == true) = g' :=
      ScanLemmas.takeWhile_append_all _ g' y
        (fun a ha => by simp [hgw a (List.mem_cons_of_mem c ha)])
        (fun a ha => by simp [hy a ha])
    have hdrop : (g' ++ y).dropWhile (fun d => isWordCharPy d == true) = y :=
      ScanLemmas.dropWhile_append_all _ g' y
        (fun a ha => by simp [hgw a (List.mem_cons_of_mem c ha)])
        (fun a ha => by simp [hy a ha])
    show pyTokens (c :: (g' ++ y)) = _
    rw [tok_def, wordRuns_cons, hc, htake, hdrop]
    simp only [List.filterMap_cons, if_true]
    rfl

theorem rsw_append_word (t : Nat) (g y : List Char) (hg : g ≠ [])
    (hgw : ∀ d ∈ g, isWordCharPy d = true)
    (hy : ∀ d ∈ y.take 1, isWordCharPy d = false) :
    removeSuspiciousLongWords t (g ++ y) =
      (if isLongAlpha t g then [] else g) ++ removeSuspiciousLongWords t y := by
  cases g with
  | nil => exact absurd rfl hg
  | cons c g' =>
    have hc : isWordCharPy c = true := hgw c (by simp)
    have htake : (g' ++ y).takeWhile (fun d => isWordCharPy d == true) = g' :=
      ScanLemmas.takeWhile_append_all _ g' y
        (fun a ha => by simp [hgw a (List.mem_cons_of_mem c ha)])
        (fun a ha => by simp [hy a ha])
    have hdrop : (g' ++ y).dropWhile (fun d => isWordCharPy d == true) = y :=
      ScanLemmas.dropWhile_append_all _ g' y
        (fun a ha => by simp [hgw a (List.mem_cons_of_mem c ha)])
        (fun a ha => by simp [hy a ha])
    show removeSuspiciousLongWords t (c :: (g' ++ y)) = _
    rw [rsw_def, wordRuns_cons, hc, htake, hdrop]
    simp only [List.map_cons, List.flatten_cons, Bool.true_and]
    rw [← rsw_def]

theorem rsw_head_nonword (t : Nat) (y : List Char)
    (hy : ∀ d ∈ y.take 1, isWordCharPy d = false) :
    ∀ d ∈ (removeSuspiciousLongWords t y).take 1, isWordCharPy d = false := by
  cases y with
  | nil => intro d hd; cases hd
  | cons c y' =>
    have hc : isWordCharPy c = false := hy c (by simp)
    rw [rsw_cons_nonword t c y' hc]
    intro d hd
    simp at hd
    rw [hd, hc]

theorem pyTokens_removeLong_aux (t : Nat) : ∀ (n : Nat) (x : List Char),
    x.length ≤ n →
    pyTokens (removeSuspiciousLongWords t x) =
      (pyTokens x).filter (fun g => !isLongAlpha t g) := by
  intro n
  induction n with
  | zero =>
    intro x hx
    rw [List.eq_nil_of_length_eq_zero (Nat.le_zero.mp hx)]
    rfl
  | succ n ih =>
    intro x hx
    cases x with
    | nil => rfl
    | cons c rest =>
      by_cases hc : isWordCharPy c = true
      · set g : List Char :=
          c :: rest.takeWhile (fun d => isWordCharPy d == true) with hgdef
        set r : List Char :=
          rest.dropWhile (fun d => isWordCharPy d == true) with hrdef
        have hgw : ∀ d ∈ g, isWordCharPy d = true := by
          intro d hd
          rcases List.mem_cons.mp hd with rfl | hd'
          · exact hc
          · have := List.mem_takeWhile_imp hd'
            simpa using this
        have hr1 : ∀ d ∈ r.take 1, isWordCharPy d = false := by
          intro d hd
          have := ScanLemmas.take_one_dropWhile_false
            (fun d => isWordCharPy d == true) rest d hd
          simpa using this
        have hsplit : c :: rest = g ++ r := by
          rw [hgdef, hrdef, List.cons_append,
            List.takeWhile_append_dropWhile]
        have hlen : r.length ≤ n := by
          have h1 : r.length ≤ rest.length :=
            (List.dropWhile_sublist (l := rest)
              (fun d => isWordCharPy d == true)).length_le
          have h2 : rest.length ≤ n := by
            have := hx
            simp only [List.length_cons] at this
            omega
          omega
        have hng : g ≠ [] := by simp [hgdef]
        rw [hsplit, rsw_append_word t g r hng hgw hr1,
          tok_append_word g r hng hgw hr1]
        by_cases hlong : isLongAlpha t g = true
        · rw [if_pos hlong, List.nil_append, ih r hlen, List.filter_cons]
          simp [hlong]
        · have hlong' : isLongAlpha t g = false := by
            cases hval : isLongAlpha t g
            · rfl
            · exact absurd hval hlong
          rw [if_neg (by rw [hlong']; exact Bool.false_ne_true)]
          rw [tok_append_word g (removeSuspiciousLongWords t r) hng hgw
            (rsw_head_nonword t r hr1)]
          rw [ih r hlen, List.filter_cons]
          simp [hlong']
      · have hc' : isWordCharPy c = false := by
          cases hval : isWordCharPy c
          · rfl
          · exact absurd hval hc
        rw [rsw_cons_nonword t c rest hc',
          tok_cons_nonword c (removeSuspiciousLongWords t rest) hc',
          tok_cons_nonword c rest hc']
        exact ih rest (by simpa using Nat.le_of_succ_le_succ hx)

end Cleaner

/-- C7: the long-word cleaning step removes exactly the purely-alphabetic
tokens longer than the threshold — every occurrence of each such token is
deleted, and every other token of the text survives unchanged, in order (so
no substring of a surviving word is touched); moreover the full cleaning of
`"supercalifragilisticexpialidocious word supercalifragilisticexpialidocious"`
(threshold 20) yields `"word"` after whitespace normalization. -/
theorem long_word_removal_spec (t : Nat) (x : List Char) :
    Cleaner.pyTokens (Cleaner.removeSuspiciousLongWords t x) =
      (Cleaner.pyTokens x).filter (fun g => !Cleaner.isLongAlpha t g) ∧
    Cleaner.cleanText
        "supercalifragilisticexpialidocious word supercalifragilisticexpialidocious" =
      "word" :=
  ⟨Cleaner.pyTokens_removeLong_aux t x.length x (le_refl _), by decide⟩

namespace NormLemmas

open PyStr

theorem mem_take_one_of_head {α : Type} {l : List α} {a : α}
    (h : l.head? = some a) : a ∈ l.take 1 := by
  cases l with
  | nil => cases h
  | cons b r => simp at h; simp [h]

theorem rstrip_exists_append (p : Char → Bool) (w : List Char) :
    ∃ t, w = rstripWith p w ++ t := by
  obtain ⟨s, hs⟩ := List.dropWhile_suffix (l := w.reverse) p
  refine ⟨s.reverse, ?_⟩
  conv_lhs => rw [← List.reverse_reverse w, ← hs]
  rw [List.reverse_append]
  rfl

theorem mem_rstrip {p : Char → Bool} {w : List Char} {c : Char}
    (h : c ∈ rstripWith p w) : c ∈ w := by
  obtain ⟨t, ht⟩ := rstrip_exists_append p w
  rw [ht]
  exact List.mem_append_left _ h

theorem rstrip_getLast_false (p : Char → Bool) (w : List Char) :
    ∀ hd, (rstripWith p w).getLast? = some hd → p hd = false := by
  intro hd h
  unfold rstripWith at h
  rw [List.getLast?_reverse] at h
  exact ScanLemmas.take_one_dropWhile_false p w.reverse hd (mem_take_one_of_head h)

theorem rstrip_eq_self (p : Char → Bool) (w : List Char)
    (h : ∀ hd, w.getLast? = some hd → p hd = false) : rstripWith p w = w := by
  unfold rstripWith
  have hw : w.reverse.dropWhile p = w.reverse := by
    cases hx : w.reverse with
    | nil => simp
    | cons a r =>
      rw [List.dropWhile_cons]
      have ha : p a = false := by
        apply h
        rw [← List.head?_reverse, hx]
        rfl
      rw [ha]
      simp
  rw [hw, List.reverse_reverse]

theorem rstrip_getLast_of_eq (p : Char → Bool) (w : List Char)
    (h : rstripWith p w = w) :
    ∀ hd, w.getLast? = some hd → p hd = false := by
  intro hd hl
  rw [← h] at hl
  exact rstrip_getLast_false p w hd hl

theorem rstrip_idem (p : Char → Bool) (w : List Char) :
    rstripWith p (rstripWith p w) = rstripWith p w :=
  rstrip_eq_self p _ (rstrip_getLast_false p w)

theorem lstrip_head_false (p : Char → Bool) (l : List Char) :
    ∀ hd, (l.dropWhile p).head? = some hd → p hd = false := by
  intro hd h
  exact ScanLemmas.take_one_dropWhile_false p l hd (mem_take_one_of_head h)

theorem dropWhile_eq_self_of_head (p : Char → Bool) (l : List Char)
    (h : ∀ hd, l.head? = some hd → p hd = false) : l.dropWhile p = l := by
  cases l with
  | nil => rfl
  | cons a r =>
    rw [List.dropWhile_cons, h a rfl]
    simp

theorem strip_head_false (l : List Char) :
    ∀ hd, (stripPy l).head? = some hd → isSpacePy hd = false := by
  intro hd h
  have hsp : stripPy l = rstripWith isSpacePy (lstripWith isSpacePy l) := rfl
  rw [hsp] at h
  obtain ⟨t, ht⟩ := rstrip_exists_append isSpacePy (lstripWith isSpacePy l)
  have hhead : (lstripWith isSpacePy l).head? = some hd := by
    conv_lhs => rw [ht]
    cases hr : rstripWith isSpacePy (lstripWith isSpacePy l) with
    | nil => rw [hr] at h; cases h
    | cons a s =>
      rw [hr] at h
      simp at h
      simp [h]
  exact lstrip_head_false isSpacePy l hd hhead

theorem strip_getLast_false (l : List Char) :
    ∀ hd, (stripPy l).getLast? = some hd → isSpacePy hd = false :=
  rstrip_getLast_false isSpacePy (lstripWith isSpacePy l)

theorem strip_eq_self (y : List Char)
    (hh : ∀ hd, y.head? = some hd → isSpacePy hd = false)
    (hl : ∀ hd, y.getLast? = some hd → isSpacePy hd = false) : stripPy y = y := by
  show rstripWith isSpacePy (lstripWith isSpacePy y) = y
  unfold lstripWith
  rw [dropWhile_eq_self_of_head _ _ hh]
  exact rstrip_eq_self _ _ hl

theorem mem_strip {l : List Char} {c : Char} (h : c ∈ stripPy l) : c ∈ l := by
  have h1 : c ∈ lstripWith isSpacePy l := mem_rstrip h
  exact (List.dropWhile_sublist isSpacePy).subset h1

theorem splitSep_ne_nil (sep : Char) (x : List Char) : splitSep sep x ≠ [] := by
  cases x with
  | nil => simp [splitSep]
  | cons c rest =>
    cases hsp : splitSep sep rest with
    | nil => rw [splitSep, hsp]; simp
    | cons s ss =>
      rw [splitSep, hsp]
      by_cases h : c = sep <;> simp [h]

theorem splitSep_cons_sep (sep : Char) (rest : List Char) :
    splitSep sep (sep :: rest) = [] :: splitSep sep rest := by
  cases hsp : splitSep sep rest with
  | nil => exact absurd hsp (splitSep_ne_nil sep rest)
  | cons s ss =>
    rw [splitSep, hsp]
    dsimp only
    rw [if_pos rfl]

theorem splitSep_cons_ne (sep c : Char) (rest : List Char) (hc : c ≠ sep) :
    splitSep sep (c :: rest) =
      (c :: (splitSep sep rest).headI) :: (splitSep sep rest).tail := by
  cases hsp : splitSep sep rest with
  | nil => exact absurd hsp (splitSep_ne_nil sep rest)
  | cons s ss =>
    rw [splitSep, hsp]
    dsimp only
    rw [if_neg hc]
    rfl

theorem joinSep_cons_head (sep c : Char) (s : List Char) (ss : List (List Char)) :
    joinSep sep ((c :: s) :: ss) = c :: joinSep sep (s :: ss) := by
  cases ss with
  | nil => rfl
  | cons s' ss' => rfl

theorem joinSep_splitSep (sep : Char) (x : List Char) :
    joinSep sep (splitSep sep x) = x := by
  induction x with
  | nil => rfl
  | cons c rest ih =>
    by_cases hc : c = sep
    · subst hc
      rw [splitSep_cons_sep]
      cases hsp : splitSep c rest with
      | nil => exact absurd hsp (splitSep_ne_nil c rest)
      | cons s ss =>
        rw [hsp] at ih
        show c :: joinSep c (s :: ss) = c :: rest
        rw [ih]
    · rw [splitSep_cons_ne sep c rest hc]
      cases hsp : splitSep sep rest with
      | nil => exact absurd hsp (splitSep_ne_nil sep rest)
      | cons s ss =>
        rw [hsp] at ih
        show joinSep sep ((c :: s) :: ss) = c :: rest
        rw [joinSep_cons_head, ih]

theorem slGo_nil (acc : List Char) :
    slGo acc [] = if acc.isEmpty then [] else [acc.reverse] := rfl

theorem slGo_cons_nb (acc : List Char) (c : Char) (rest : List Char)
    (hc : isLineBoundary c = false) :
    slGo acc (c :: rest) = slGo (c :: acc) rest := by
  rw [slGo.eq_def]
  dsimp only
  rw [if_neg (by rw [hc]; exact Bool.false_ne_true)]

theorem slGo_cons_nl (acc rest : List Char) :
    slGo acc ('\n' :: rest) = acc.reverse :: slGo [] rest := by
  rw [slGo.eq_def]
  dsimp only
  rw [if_pos (by decide), if_neg (by decide : ¬('\n' = '\r'))]

theorem cnGo_drop : ∀ (k : Nat) (x : List Char), cnGo k x = collapseNl (x.drop k) := by
  intro k
  induction k with
  | zero => intro x; rfl
  | succ k ih =>
    intro x
    cases x with
    | nil => rfl
    | cons c rest =>
      show cnGo k rest = collapseNl (rest.drop k)
      exact ih rest

theorem collapseNl_cons_ne (c : Char) (rest : List Char) (hc : c ≠ '\n') :
    collapseNl (c :: rest) = c :: collapseNl rest := by
  show cnGo 0 (c :: rest) = _
  simp only [cnGo]
  rw [if_neg hc]
  rfl

theorem drop_length_takeWhile (p : Char → Bool) (l : List Char) :
    l.drop (l.takeWhile p).length = l.dropWhile p := by
  have h := List.takeWhile_append_dropWhile (p := p) (l := l)
  calc l.drop (l.takeWhile p).length
      = (l.takeWhile p ++ l.dropWhile p).drop (l.takeWhile p).length := by rw [h]
    _ = l.dropWhile p := List.drop_left _ _

theorem collapseNl_cons_nl (rest : List Char) :
    collapseNl ('\n' :: rest) =
      (if 3 ≤ (rest.takeWhile (fun d => d == '\n')).length + 1 then ['\n', '\n']
        else List.replicate ((rest.takeWhile (fun d => d == '\n')).length + 1) '\n') ++
        collapseNl (rest.dropWhile (fun d => d == '\n')) := by
  show cnGo 0 ('\n' :: rest) = _
  simp only [cnGo]
  rw [if_true]
  rw [cnGo_drop]
  rw [Nat.add_sub_cancel, drop_length_takeWhile]

end NormLemmas

namespace NormLemmas

open PyStr

theorem band_true {a b : Bool} (h : (a && b) = true) : a = true ∧ b = true := by
  simp at h
  exact h

theorem band_intro {a b : Bool} (h1 : a = true) (h2 : b = true) :
    (a && b) = true := by
  simp [h1, h2]

theorem slGo_cr_nl (acc r2 : List Char) :
    slGo acc ('\r' :: '\n' :: r2) = acc.reverse :: slGo [] r2 := rfl

theorem slGo_cr_other (acc : List Char) (d : Char) (r2 : List Char) (hd : d ≠ '\n') :
    slGo acc ('\r' :: d :: r2) = acc.reverse :: slGo [] (d :: r2) := by
  rw [slGo.eq_def]
  dsimp only
  rw [if_pos (by decide), if_pos rfl, if_neg hd]

theorem slGo_cr_nil (acc : List Char) :
    slGo acc ['\r'] = acc.reverse :: slGo [] [] := rfl

theorem slGo_b_other (acc : List Char) (c : Char) (rest : List Char)
    (hb : isLineBoundary c = true) (hc : c ≠ '\r') :
    slGo acc (c :: rest) = acc.reverse :: slGo [] rest := by
  rw [slGo.eq_def]
  dsimp only
  rw [if_pos hb, if_neg hc]

theorem slGo_lines : ∀ (acc x : List Char),
    (∀ c ∈ acc, isLineBoundary c = false) →
    ∀ l ∈ slGo acc x, ∀ c ∈ l, isLineBoundary c = false := by
  intro acc x
  induction acc, x using slGo.induct with
  | case1 acc hacc =>
    intro _ l hl
    rw [slGo_nil, if_pos hacc] at hl
    cases hl
  | case2 acc hacc =>
    intro h l hl
    rw [slGo_nil, if_neg hacc] at hl
    rcases List.mem_singleton.mp hl with rfl
    intro c hc
    exact h c (List.mem_reverse.mp hc)
  | case3 acc r2 hb ih =>
    intro h l hl
    rw [slGo_cr_nl] at hl
    rcases List.mem_cons.mp hl with rfl | hl'
    · intro c hc; exact h c (List.mem_reverse.mp hc)
    · exact ih (by intro c hc; cases hc) l hl'
  | case4 acc d r2 hd hb ih =>
    intro h l hl
    rw [slGo_cr_other acc d r2 hd] at hl
    rcases List.mem_cons.mp hl with rfl | hl'
    · intro c hc; exact h c (List.mem_reverse.mp hc)
    · exact ih (by intro c hc; cases hc) l hl'
  | case5 acc hb ih =>
    intro h l hl
    rw [slGo_cr_nil] at hl
    rcases List.mem_cons.mp hl with rfl | hl'
    · intro c hc; exact h c (List.mem_reverse.mp hc)
    · exact ih (by intro c hc; cases hc) l hl'
  | case6 acc c rest hb hc ih =>
    intro h l hl
    rw [slGo_b_other acc c rest hb hc] at hl
    rcases List.mem_cons.mp hl with rfl | hl'
    · intro c' hc'; exact h c' (List.mem_reverse.mp hc')
    · exact ih (by intro c' hc'; cases hc') l hl'
  | case7 acc c rest hb ih =>
    intro h l hl
    have hcb : isLineBoundary c = false := by
      rw [Bool.not_eq_true] at hb; exact hb
    rw [slGo_cons_nb acc c rest hcb] at hl
    refine ih ?_ l hl
    intro c' hc'
    rcases List.mem_cons.mp hc' with rfl | hc''
    · exact hcb
    · exact h c' hc''

theorem splitlines_lines (x : List Char) :
    ∀ l ∈ splitlinesPy x, ∀ c ∈ l, isLineBoundary c = false :=
  slGo_lines [] x (by intro c hc; cases hc)

theorem noWsNl_cons_cons (a b : Char) (r : List Char) :
    noWsNl (a :: b :: r) =
      (((!(b == '\n')) || (a == '\n') || !isSpacePy a) && noWsNl (b :: r)) := rfl

theorem noWsNl_tail {a : Char} {l : List Char} (h : noWsNl (a :: l) = true) :
    noWsNl l = true := by
  cases l with
  | nil => rfl
  | cons b r =>
    rw [noWsNl_cons_cons] at h
    exact (band_true h).2

theorem noWsNl_head_cond {a : Char} {l : List Char} (h : noWsNl (a :: l) = true) :
    ∀ b, l.head? = some b → b = '\n' → (a = '\n' ∨ isSpacePy a = false) := by
  intro b hb hbn
  cases l with
  | nil => cases hb
  | cons b' r =>
    have hb' : b' = b := by simpa using hb
    subst hb'
    subst hbn
    rw [noWsNl_cons_cons] at h
    have h1 := (band_true h).1
    simpa using h1

theorem noWsNl_cons_intro {a : Char} {l : List Char} (h : noWsNl l = true)
    (hc : ∀ b, l.head? = some b → b = '\n' → (a = '\n' ∨ isSpacePy a = false)) :
    noWsNl (a :: l) = true := by
  cases l with
  | nil => rfl
  | cons b r =>
    rw [noWsNl_cons_cons]
    refine band_intro ?_ h
    by_cases hbn : b = '\n'
    · rcases hc b rfl hbn with h2 | h2 <;> simp [h2]
    · simp [hbn]

theorem noWsNl_append_left : ∀ {l t : List Char}, noWsNl (l ++ t) = true →
    noWsNl l = true := by
  intro l
  induction l with
  | nil => intro t _; rfl
  | cons a l ih =>
    intro t h
    cases l with
    | nil => rfl
    | cons b r =>
      rw [List.cons_append, List.cons_append, noWsNl_cons_cons] at h
      have h1 := (band_true h).1
      have h2 := (band_true h).2
      rw [noWsNl_cons_cons]
      refine band_intro h1 (ih (t := t) ?_)
      rw [List.cons_append]
      exact h2

theorem noWsNl_dropWhile (p : Char → Bool) {l : List Char}
    (h : noWsNl l = true) : noWsNl (l.dropWhile p) = true := by
  induction l with
  | nil => rfl
  | cons a l ih =>
    rw [List.dropWhile_cons]
    by_cases ha : p a = true
    · simp only [ha, if_true]
      exact ih (noWsNl_tail h)
    · have ha' : p a = false := by rw [Bool.not_eq_true] at ha; exact ha
      simp only [ha', Bool.false_eq_true, if_false]
      exact h

theorem noTriple_cons₃ (a b c : Char) (r : List Char) :
    noTriple (a :: b :: c :: r) =
      (!((a == '\n') && (b == '\n') && (c == '\n')) && noTriple (b :: c :: r)) := rfl

theorem noTriple_tail {a : Char} {l : List Char} (h : noTriple (a :: l) = true) :
    noTriple l = true := by
  cases l with
  | nil => rfl
  | cons b r =>
    cases r with
    | nil => rfl
    | cons c r' =>
      rw [noTriple_cons₃] at h
      exact (band_true h).2

theorem noTriple_append_left : ∀ {l t : List Char}, noTriple (l ++ t) = true →
    noTriple l = true := by
  intro l
  induction l with
  | nil => intro t _; rfl
  | cons a l ih =>
    intro t h
    cases l with
    | nil => rfl
    | cons b r =>
      cases r with
      | nil => rfl
      | cons c r' =>
        rw [List.cons_append, List.cons_append, List.cons_append,
          noTriple_cons₃] at h
        have h1 := (band_true h).1
        have h2 := (band_true h).2
        rw [noTriple_cons₃]
        refine band_intro h1 (ih (t := t) ?_)
        rw [List.cons_append, List.cons_append]
        exact h2

theorem noTriple_dropWhile (p : Char → Bool) {l : List Char}
    (h : noTriple l = true) : noTriple (l.dropWhile p) = true := by
  induction l with
  | nil => rfl
  | cons a l ih =>
    rw [List.dropWhile_cons]
    by_cases ha : p a = true
    · simp only [ha, if_true]
      exact ih (noTriple_tail h)
    · have ha' : p a = false := by rw [Bool.not_eq_true] at ha; exact ha
      simp only [ha', Bool.false_eq_true, if_false]
      exact h

theorem onlyNl_char {x : List Char} {c : Char} (h : onlyNl x = true)
    (hc : c ∈ x) (hb : isLineBoundary c = true) : c = '\n' := by
  unfold onlyNl at h
  have h2 := (List.all_eq_true.mp h) c hc
  simpa [hb] using h2

theorem mem_cnGo : ∀ (x : List Char) (k : Nat) (c : Char),
    c ∈ cnGo k x → c ∈ x ∨ c = '\n' := by
  intro x
  induction x with
  | nil =>
    intro k c h
    cases k with
    | zero => cases h
    | succ k => cases h
  | cons d rest ih =>
    intro k c h
    cases k with
    | succ k =>
      rcases ih k c h with h2 | h2
      · exact Or.inl (List.mem_cons_of_mem d h2)
      · exact Or.inr h2
    | zero =>
      by_cases hd : d = '\n'
      · subst hd
        rw [show cnGo 0 ('\n' :: rest) = _ from collapseNl_cons_nl rest] at h
        rcases List.mem_append.mp h with h2 | h2
        · refine Or.inr ?_
          rcases em (3 ≤ (rest.takeWhile (fun d => d == '\n')).length + 1) with h3 | h3
          · rw [if_pos h3] at h2
            rcases List.mem_cons.mp h2 with rfl | h4
            · rfl
            · simpa using h4
          · rw [if_neg h3] at h2
            exact List.eq_of_mem_replicate h2
        · have h3 : c ∈ cnGo ((rest.takeWhile (fun d => d == '\n')).length) rest := by
            rw [cnGo_drop, drop_length_takeWhile]
            exact h2
          rcases ih _ c h3 with h4 | h4
          · exact Or.inl (List.mem_cons_of_mem _ h4)
          · exact Or.inr h4
      · rw [show cnGo 0 (d :: rest) = d :: cnGo 0 rest from
          collapseNl_cons_ne d rest hd] at h
        rcases List.mem_cons.mp h with rfl | h2
        · exact Or.inl (List.mem_cons_self _ rest)
        · rcases ih 0 c h2 with h3 | h3
          · exact Or.inl (List.mem_cons_of_mem d h3)
          · exact Or.inr h3

theorem mem_collapse {x : List Char} {c : Char} (h : c ∈ collapseNl x) :
    c ∈ x ∨ c = '\n' := mem_cnGo x 0 c h

theorem mem_joinSep : ∀ (ls : List (List Char)) (c : Char),
    c ∈ joinSep '\n' ls → c = '\n' ∨ ∃ l ∈ ls, c ∈ l := by
  intro ls
  induction ls with
  | nil => intro c h; cases h
  | cons l ls ih =>
    intro c h
    cases ls with
    | nil => exact Or.inr ⟨l, by simp, h⟩
    | cons l' ls' =>
      rcases List.mem_append.mp h with h2 | h2
      · exact Or.inr ⟨l, by simp, h2⟩
      · rcases List.mem_cons.mp h2 with rfl | h3
        · exact Or.inl rfl
        · rcases ih c h3 with h4 | ⟨l'', hl'', hc⟩
          · exact Or.inl h4
          · exact Or.inr ⟨l'', List.mem_cons_of_mem l hl'', hc⟩

theorem collapse_head (x : List Char) : (collapseNl x).head? = x.head? := by
  cases x with
  | nil => rfl
  | cons c rest =>
    by_cases hc : c = '\n'
    · subst hc
      rw [collapseNl_cons_nl]
      rcases em (3 ≤ (rest.takeWhile (fun d => d == '\n')).length + 1) with h3 | h3
      · rw [if_pos h3]; rfl
      · rw [if_neg h3]; rfl
    · rw [collapseNl_cons_ne c rest hc]; rfl

end NormLemmas

namespace NormLemmas

open PyStr Cleaner

theorem head?_mem {α : Type} {l : List α} {a : α} (h : l.head? = some a) :
    a ∈ l := by
  cases l with
  | nil => cases h
  | cons b r =>
    simp at h
    simp [h]

theorem noWsNl_of_no_nl {l : List Char} (h : '\n' ∉ l) : noWsNl l = true := by
  induction l with
  | nil => rfl
  | cons a l ih =>
    refine noWsNl_cons_intro (ih (fun hc => h (List.mem_cons_of_mem a hc))) ?_
    intro b hb hbn
    subst hbn
    exact absurd (List.mem_cons_of_mem a (head?_mem hb)) h

theorem noWsNl_nl_cons {z : List Char} (h : noWsNl z = true) :
    noWsNl ('\n' :: z) = true := by
  refine noWsNl_cons_intro h ?_
  intro b _ _
  exact Or.inl rfl

theorem noWsNl_append_nl : ∀ (l z : List Char), '\n' ∉ l →
    (∀ hd, l.getLast? = some hd → isSpacePy hd = false) →
    noWsNl z = true → noWsNl (l ++ '\n' :: z) = true := by
  intro l
  induction l with
  | nil => intro z _ _ hz; exact noWsNl_nl_cons hz
  | cons a l ih =>
    intro z hnl hlast hz
    have hlast' : ∀ hd, l.getLast? = some hd → isSpacePy hd = false := by
      intro hd hhd
      apply hlast
      cases l with
      | nil => cases hhd
      | cons b r => rw [List.getLast?_cons_cons]; exact hhd
    rw [List.cons_append]
    refine noWsNl_cons_intro
      (ih z (fun hc => hnl (List.mem_cons_of_mem a hc)) hlast' hz) ?_
    intro b hb hbn
    cases l with
    | nil =>
      refine Or.inr (hlast a ?_)
      rfl
    | cons b' r =>
      have hb' : b' = b := by
        rw [List.cons_append] at hb
        simpa using hb
      have hmem : '\n' ∈ b' :: r := by
        rw [← hbn, ← hb']
        exact List.mem_cons_self b' r
      exact absurd (List.mem_cons_of_mem a hmem) hnl

theorem join_noWsNl : ∀ (ls : List (List Char)),
    (∀ l ∈ ls, '\n' ∉ l) →
    (∀ l ∈ ls, ∀ hd, l.getLast? = some hd → isSpacePy hd = false) →
    noWsNl (joinSep '\n' ls) = true := by
  intro ls
  induction ls with
  | nil => intro _ _; rfl
  | cons l ls ih =>
    intro h1 h2
    cases ls with
    | nil => exact noWsNl_of_no_nl (h1 l (List.mem_cons_self l []))
    | cons l' ls' =>
      show noWsNl (l ++ '\n' :: joinSep '\n' (l' :: ls')) = true
      exact noWsNl_append_nl l _ (h1 l (List.mem_cons_self _ _))
        (h2 l (List.mem_cons_self _ _))
        (ih (fun a ha => h1 a (List.mem_cons_of_mem l ha))
          (fun a ha => h2 a (List.mem_cons_of_mem l ha)))

theorem noWsNl_nlrun_append : ∀ (e z : List Char), (∀ d ∈ e, d = '\n') →
    noWsNl z = true → noWsNl (e ++ z) = true := by
  intro e
  induction e with
  | nil => intro z _ hz; exact hz
  | cons a e ih =>
    intro z he hz
    rw [List.cons_append]
    refine noWsNl_cons_intro (ih z (fun d hd => he d (List.mem_cons_of_mem a hd)) hz) ?_
    intro b _ _
    exact Or.inl (he a (List.mem_cons_self a e))

theorem noWsNl_collapse : ∀ (n : Nat) (x : List Char), x.length ≤ n →
    noWsNl x = true → noWsNl (collapseNl x) = true := by
  intro n
  induction n with
  | zero =>
    intro x hx _
    rw [List.eq_nil_of_length_eq_zero (Nat.le_zero.mp hx)]
    rfl
  | succ n ih =>
    intro x hx h
    cases x with
    | nil => rfl
    | cons c rest =>
      have hrest : rest.length ≤ n := by
        simp only [List.length_cons] at hx
        omega
      by_cases hc : c = '\n'
      · subst hc
        rw [collapseNl_cons_nl]
        have hz : noWsNl (collapseNl (rest.dropWhile (fun d => d == '\n'))) = true := by
          refine ih _ ?_ (noWsNl_dropWhile _ (noWsNl_tail h))
          exact le_trans ((List.dropWhile_sublist _).length_le) hrest
        refine noWsNl_nlrun_append _ _ ?_ hz
        intro d hd
        rcases em (3 ≤ (rest.takeWhile (fun d => d == '\n')).length + 1) with h3 | h3
        · rw [if_pos h3] at hd
          rcases List.mem_cons.mp hd with rfl | hd'
          · rfl
          · simpa using hd'
        · rw [if_neg h3] at hd
          exact List.eq_of_mem_replicate hd
      · rw [collapseNl_cons_ne c rest hc]
        refine noWsNl_cons_intro (ih rest hrest (noWsNl_tail h)) ?_
        intro b hb hbn
        rw [collapse_head] at hb
        exact noWsNl_head_cond h b hb hbn

theorem noTriple_cons_ne {a : Char} {w : List Char} (ha : a ≠ '\n')
    (h : noTriple w = true) : noTriple (a :: w) = true := by
  cases w with
  | nil => rfl
  | cons b r =>
    cases r with
    | nil => rfl
    | cons c r' =>
      rw [noTriple_cons₃]
      refine band_intro ?_ h
      simp [ha]

theorem noTriple_nl_cons {z : List Char} (hz : noTriple z = true)
    (hhead : ∀ b, z.head? = some b → b ≠ '\n') : noTriple ('\n' :: z) = true := by
  cases z with
  | nil => rfl
  | cons b r =>
    have hb : b ≠ '\n' := hhead b rfl
    cases r with
    | nil => rfl
    | cons c r' =>
      rw [noTriple_cons₃]
      refine band_intro ?_ hz
      simp [hb]

theorem noTriple_two_nl {z : List Char} (hz : noTriple z = true)
    (hhead : ∀ b, z.head? = some b → b ≠ '\n') :
    noTriple ('\n' :: '\n' :: z) = true := by
  cases z with
  | nil => rfl
  | cons b r =>
    have hb : b ≠ '\n' := hhead b rfl
    rw [noTriple_cons₃]
    exact band_intro (by simp [hb]) (noTriple_nl_cons hz hhead)

theorem noTriple_collapse : ∀ (n : Nat) (x : List Char), x.length ≤ n →
    noTriple (collapseNl x) = true := by
  intro n
  induction n with
  | zero =>
    intro x hx
    rw [List.eq_nil_of_length_eq_zero (Nat.le_zero.mp hx)]
    rfl
  | succ n ih =>
    intro x hx
    cases x with
    | nil => rfl
    | cons c rest =>
      have hrest : rest.length ≤ n := by
        simp only [List.length_cons] at hx
        omega
      by_cases hc : c = '\n'
      · subst hc
        rw [collapseNl_cons_nl]
        have hz : noTriple (collapseNl (rest.dropWhile (fun d => d == '\n'))) = true :=
          ih _ (le_trans ((List.dropWhile_sublist _).length_le) hrest)
        have hhead : ∀ b, (collapseNl (rest.dropWhile (fun d => d == '\n'))).head? =
            some b → b ≠ '\n' := by
          intro b hb hbn
          rw [collapse_head] at hb
          have := ScanLemmas.take_one_dropWhile_false (fun d => d == '\n') rest b
            (mem_take_one_of_head hb)
          rw [hbn] at this
          simp at this
        rcases em (3 ≤ (rest.takeWhile (fun d => d == '\n')).length + 1) with h3 | h3
        · rw [if_pos h3]
          exact noTriple_two_nl hz hhead
        · rw [if_neg h3]
          have hk : (rest.takeWhile (fun d => d == '\n')).length = 0 ∨
              (rest.takeWhile (fun d => d == '\n')).length = 1 := by omega
          rcases hk with hk | hk
          · rw [hk]
            exact noTriple_nl_cons hz hhead
          · rw [hk]
            exact noTriple_two_nl hz hhead
      · rw [collapseNl_cons_ne c rest hc]
        exact noTriple_cons_ne hc (ih rest hrest)

theorem collapse_fix : ∀ (n : Nat) (x : List Char), x.length ≤ n →
    noTriple x = true → collapseNl x = x := by
  intro n
  induction n with
  | zero =>
    intro x hx _
    rw [List.eq_nil_of_length_eq_zero (Nat.le_zero.mp hx)]
    rfl
  | succ n ih =>
    intro x hx h
    cases x with
    | nil => rfl
    | cons c rest =>
      have hrest : rest.length ≤ n := by
        simp only [List.length_cons] at hx
        omega
      by_cases hc : c = '\n'
      · subst hc
        rw [collapseNl_cons_nl]
        have htw_nl : ∀ d ∈ rest.takeWhile (fun d => d == '\n'), d = '\n' := by
          intro d hd
          have := List.mem_takeWhile_imp hd
          simpa using this
        have htw_le : (rest.takeWhile (fun d => d == '\n')).length ≤ 1 := by
          by_contra hgt
          rcases htw : rest.takeWhile (fun d => d == '\n') with _ | ⟨d1, _ | ⟨d2, tl⟩⟩
          · rw [htw] at hgt; simp at hgt
          · rw [htw] at hgt; simp at hgt
          · have hd1 : d1 = '\n' := htw_nl d1 (by rw [htw]; exact List.mem_cons_self _ _)
            have hd2 : d2 = '\n' := htw_nl d2 (by
              rw [htw]; exact List.mem_cons_of_mem _ (List.mem_cons_self _ _))
            have hshape : rest = '\n' :: '\n' :: (tl ++ rest.dropWhile (fun d => d == '\n')) := by
              conv_lhs => rw [← List.takeWhile_append_dropWhile
                (p := fun d => d == '\n') (l := rest)]
              rw [htw, hd1, hd2]
              rfl
            rw [hshape, noTriple_cons₃] at h
            have h1 := (band_true h).1
            simp at h1
        rw [if_neg (by omega)]
        have hrepl : List.replicate ((rest.takeWhile (fun d => d == '\n')).length + 1) '\n' =
            '\n' :: rest.takeWhile (fun d => d == '\n') := by
          rw [List.replicate_succ]
          congr 1
          have := List.eq_replicate_of_mem htw_nl
          exact this.symm
        rw [hrepl]
        rw [ih _ (le_trans ((List.dropWhile_sublist _).length_le) hrest)
          (noTriple_dropWhile _ (noTriple_tail h))]
        rw [List.cons_append, List.takeWhile_append_dropWhile]
      · rw [collapseNl_cons_ne c rest hc, ih rest hrest (noTriple_tail h)]

end NormLemmas

namespace NormLemmas

open PyStr Cleaner

theorem segs_rstripped : ∀ (x : List Char), noWsNl x = true →
    (∀ hd, x.getLast? = some hd → (hd = '\n' ∨ isSpacePy hd = false)) →
    ∀ s ∈ splitSep '\n' x, rstripWith isSpacePy s = s := by
  intro x
  induction x with
  | nil =>
    intro _ _ s hs
    have hs' : s = [] := by simpa [splitSep] using hs
    rw [hs']
    rfl
  | cons c rest ih =>
    intro h hlast s hs
    have hlast' : ∀ hd, rest.getLast? = some hd →
        (hd = '\n' ∨ isSpacePy hd = false) := by
      intro hd hhd
      apply hlast
      cases rest with
      | nil => cases hhd
      | cons b r => rw [List.getLast?_cons_cons]; exact hhd
    by_cases hc : c = '\n'
    · subst hc
      rw [splitSep_cons_sep] at hs
      rcases List.mem_cons.mp hs with rfl | hs'
      · rfl
      · exact ih (noWsNl_tail h) hlast' s hs'
    · rw [splitSep_cons_ne '\n' c rest hc] at hs
      rcases List.mem_cons.mp hs with rfl | hs'
      · cases hsp : splitSep '\n' rest with
        | nil => exact absurd hsp (splitSep_ne_nil _ _)
        | cons s0 ss =>
          dsimp only [List.headI]
          by_cases hs0 : s0 = []
          · subst hs0
            have hcs : isSpacePy c = false := by
              cases rest with
              | nil =>
                rcases hlast c rfl with h1 | h1
                · exact absurd h1 hc
                · exact h1
              | cons d r =>
                have hd : d = '\n' := by
                  by_contra hdne
                  rw [splitSep_cons_ne '\n' d r hdne] at hsp
                  cases hsp
                rcases noWsNl_head_cond h '\n' (by rw [hd]; rfl) rfl with h1 | h1
                · exact absurd h1 hc
                · exact h1
            apply rstrip_eq_self
            intro hd hhd
            have hdc : c = hd := by simpa using hhd
            rw [← hdc]
            exact hcs
          · have hmem0 : s0 ∈ splitSep '\n' rest := by
              rw [hsp]; exact List.mem_cons_self _ _
            have hfix : rstripWith isSpacePy s0 = s0 :=
              ih (noWsNl_tail h) hlast' s0 hmem0
            have hlast0 := rstrip_getLast_of_eq _ _ hfix
            apply rstrip_eq_self
            intro hd hhd
            cases s0 with
            | nil => exact absurd rfl hs0
            | cons e es =>
              rw [List.getLast?_cons_cons] at hhd
              exact hlast0 hd hhd
      · exact ih (noWsNl_tail h) hlast' s (List.mem_of_mem_tail hs')

theorem onlyNl_tail {c : Char} {rest : List Char}
    (h : onlyNl (c :: rest) = true) : onlyNl rest = true := by
  unfold onlyNl at h ⊢
  rw [List.all_cons] at h
  exact (band_true h).2

theorem slGo_splitSep : ∀ (x acc : List Char),
    onlyNl x = true →
    (x = [] → acc ≠ []) →
    (∀ hd, x.getLast? = some hd → hd ≠ '\n') →
    slGo acc x = (acc.reverse ++ (splitSep '\n' x).headI) :: (splitSep '\n' x).tail := by
  intro x
  induction x with
  | nil =>
    intro acc _ hne _
    rw [slGo_nil, if_neg (by simpa [List.isEmpty_iff] using hne rfl)]
    simp [splitSep]
  | cons c rest ih =>
    intro acc honly hne hlast
    have honly' : onlyNl rest = true := onlyNl_tail honly
    have hlast' : ∀ hd, rest.getLast? = some hd → hd ≠ '\n' := by
      intro hd hhd
      apply hlast
      cases rest with
      | nil => cases hhd
      | cons b r => rw [List.getLast?_cons_cons]; exact hhd
    by_cases hc : c = '\n'
    · subst hc
      rw [slGo_cons_nl]
      have hrest_ne : rest ≠ [] := by
        intro hr
        subst hr
        exact hlast '\n' rfl rfl
      rw [ih [] honly' (fun hr => absurd hr hrest_ne) hlast']
      rw [splitSep_cons_sep]
      cases hsp : splitSep '\n' rest with
      | nil => exact absurd hsp (splitSep_ne_nil _ _)
      | cons s0 ss => simp
    · have hcb : isLineBoundary c = false := by
        by_contra hb
        have hb' : isLineBoundary c = true := by
          cases hval : isLineBoundary c
          · exact absurd hval hb
          · rfl
        exact hc (onlyNl_char honly (List.mem_cons_self c rest) hb')
      rw [slGo_cons_nb acc c rest hcb]
      rw [ih (c :: acc) honly' (fun _ => by simp) hlast']
      rw [splitSep_cons_ne '\n' c rest hc]
      simp

theorem splitlines_eq_splitSep (y : List Char) (hy : y ≠ [])
    (honly : onlyNl y = true)
    (hlast : ∀ hd, y.getLast? = some hd → hd ≠ '\n') :
    splitlinesPy y = splitSep '\n' y := by
  show slGo [] y = _
  rw [slGo_splitSep y [] honly (fun h => absurd h hy) hlast]
  cases hsp : splitSep '\n' y with
  | nil => exact absurd hsp (splitSep_ne_nil _ _)
  | cons s0 ss => simp

theorem norm_onlyNl (x : List Char) : onlyNl (normalizeWhitespace x) = true := by
  unfold onlyNl
  rw [List.all_eq_true]
  intro c hc
  have h1 : c ∈ collapseNl (joinSep '\n'
      ((splitlinesPy x).map (rstripWith isSpacePy))) := mem_strip hc
  rcases mem_collapse h1 with h2 | h2
  · rcases mem_joinSep _ c h2 with h3 | ⟨l, hl, hcl⟩
    · simp [h3]
    · obtain ⟨l0, hl0, rfl⟩ := List.mem_map.mp hl
      have hb := splitlines_lines x l0 hl0 c (mem_rstrip hcl)
      simp [hb]
  · simp [h2]

theorem norm_noWsNl (x : List Char) : noWsNl (normalizeWhitespace x) = true := by
  have hJ : noWsNl (joinSep '\n'
      ((splitlinesPy x).map (rstripWith isSpacePy))) = true := by
    apply join_noWsNl
    · intro l hl
      obtain ⟨l0, hl0, rfl⟩ := List.mem_map.mp hl
      intro hmem
      have hb := splitlines_lines x l0 hl0 '\n' (mem_rstrip hmem)
      exact absurd hb (by decide)
    · intro l hl
      obtain ⟨l0, hl0, rfl⟩ := List.mem_map.mp hl
      exact rstrip_getLast_false isSpacePy l0
  have hC : noWsNl (collapseNl (joinSep '\n'
      ((splitlinesPy x).map (rstripWith isSpacePy)))) = true :=
    noWsNl_collapse _ _ (le_refl _) hJ
  have hL : noWsNl (lstripWith isSpacePy (collapseNl (joinSep '\n'
      ((splitlinesPy x).map (rstripWith isSpacePy))))) = true :=
    noWsNl_dropWhile _ hC
  obtain ⟨t, ht⟩ := rstrip_exists_append isSpacePy (lstripWith isSpacePy
    (collapseNl (joinSep '\n' ((splitlinesPy x).map (rstripWith isSpacePy)))))
  rw [ht] at hL
  exact noWsNl_append_left hL

theorem norm_noTriple (x : List Char) : noTriple (normalizeWhitespace x) = true := by
  have hC : noTriple (collapseNl (joinSep '\n'
      ((splitlinesPy x).map (rstripWith isSpacePy)))) = true :=
    noTriple_collapse _ _ (le_refl _)
  have hL : noTriple (lstripWith isSpacePy (collapseNl (joinSep '\n'
      ((splitlinesPy x).map (rstripWith isSpacePy))))) = true :=
    noTriple_dropWhile _ hC
  obtain ⟨t, ht⟩ := rstrip_exists_append isSpacePy (lstripWith isSpacePy
    (collapseNl (joinSep '\n' ((splitlinesPy x).map (rstripWith isSpacePy)))))
  rw [ht] at hL
  exact noTriple_append_left hL

theorem normalize_fixed (y : List Char)
    (honly : onlyNl y = true) (hwsnl : noWsNl y = true)
    (htrip : noTriple y = true)
    (hhead : ∀ hd, y.head? = some hd → isSpacePy hd = false)
    (hlast : ∀ hd, y.getLast? = some hd → isSpacePy hd = false) :
    normalizeWhitespace y = y := by
  by_cases hynil : y = []
  · subst hynil
    rfl
  · have hlastnl : ∀ hd, y.getLast? = some hd → hd ≠ '\n' := by
      intro hd h hn
      subst hn
      have := hlast _ h
      simp [isSpacePy] at this
    unfold normalizeWhitespace
    rw [splitlines_eq_splitSep y hynil honly hlastnl]
    have hmap : (splitSep '\n' y).map (rstripWith isSpacePy) = splitSep '\n' y := by
      have hsegs := segs_rstripped y hwsnl (fun hd h => Or.inr (hlast hd h))
      conv_rhs => rw [← List.map_id (splitSep '\n' y)]
      exact List.map_congr_left (fun s hs => hsegs s hs)
    rw [hmap, joinSep_splitSep]
    rw [collapse_fix y.length y (le_refl _) htrip]
    exact strip_eq_self y hhead hlast

theorem normalize_idem (x : List Char) :
    normalizeWhitespace (normalizeWhitespace x) = normalizeWhitespace x :=
  normalize_fixed (normalizeWhitespace x) (norm_onlyNl x) (norm_noWsNl x)
    (norm_noTriple x) (strip_head_false _) (strip_getLast_false _)

end NormLemmas

/-- C5 counterexample: cleaning is not idempotent.  Removing the image tag
from `"<!-- im<!-- image -->age -->"` re-forms the tag, so the first pass
returns `"<!-- image -->"` and a second pass removes it, giving `""`. -/
theorem clean_text_not_idempotent_cex :
    Cleaner.cleanText (Cleaner.cleanText "<!-- im<!-- image -->age -->") ≠
      Cleaner.cleanText "<!-- im<!-- image -->age -->" := by
  decide

/-- C5 (amended): the final normalization step is idempotent — applying
`normalize_whitespace` twice yields the same result as applying it once, for
every text; the full `clean_text` pipeline, however, is not idempotent in
general (artifact removal can re-form a removable pattern, see the
counterexample). -/
theorem normalize_whitespace_idempotent (x : List Char) :
    Cleaner.normalizeWhitespace (Cleaner.normalizeWhitespace x) =
      Cleaner.normalizeWhitespace x :=
  NormLemmas.normalize_idem x
